import Mathlib

/-!
# Go-First-project: rate limiter, integer arithmetic, request helpers and data structures

A shallow embedding of `RateLimiter` (`main.go`, lines 25-90) with proofs about
`Allow` and `cleanupVisitors`; of `MultiplyIntegers` and `Factorial`
(`multiply.go`) and `DivideIntegers` (`divide.go`); of `getClientIP`,
`sanitizeInput` and `validateFormInput` (`main.go`); and of the binary
searches, the quick and merge sorts and the linked list of `datastructures/`.

Modelling conventions of the rate limiter.

* `map[string]*Visitor` is an association list with unique keys
  (`AList`): `m[k]` is `AList.lookup`, `m[k] = v` and the in-place update of
  the record behind the pointer are `AList.insert` (which replaces the entry
  of an existing key), `delete(m, k)` is `AList.erase`.
* A `time.Time` is its monotonic clock reading in nanoseconds, an `Int`, and
  so is a `time.Duration`.
  The clock is an explicit argument `now` of every operation; the two
  readings `Allow` takes in its reset branch (`time.Since` and `time.Now`)
  are the same instant.
* `time.Since` saturates at the ends of the `int64` range of `Duration`,
  as `time.Time.Sub` does.
* `count` is a Go `int`; the only arithmetic on it is `count++` under the
  guard `count < 100`, so it is an unbounded integer here.
* The mutex is not modelled: every operation runs atomically, and the
  background goroutine of `NewRateLimiter` is the `sweep` operation of
  `Op`, which may occur at any point of a run.
-/

namespace GoFirst

/-- Go `time.Minute`. -/
def Minute : Int := 60 * 1000000000

/-- Largest `time.Duration` (`1<<63 - 1`). -/
def maxDuration : Int := 9223372036854775807

/-- Smallest `time.Duration` (`-1 << 63`). -/
def minDuration : Int := -9223372036854775808

/-- Go `time.Since(t)` with the clock reading `now`: the difference `now - t`,
saturated to the range of `Duration`. -/
def Since (now t : Int) : Int :=
  if now - t > maxDuration then maxDuration
  else if now - t < minDuration then minDuration
  else now - t

/-- The record kept per client (`type Visitor struct`). -/
structure Visitor where
  lastSeen : Int
  count : Int
  deriving DecidableEq, Repr

/-- The limiter (`type RateLimiter struct`); the mutex is left out. -/
structure RateLimiter where
  visitors : AList (fun _ : String => Visitor)
  deriving DecidableEq

/-- `NewRateLimiter`: an empty visitors map. -/
def NewRateLimiter : RateLimiter := ⟨∅⟩

/-- `RateLimiter.Allow`: the decision and the limiter after the call. -/
def RateLimiter.Allow (rl : RateLimiter) (ip : String) (now : Int) : Bool × RateLimiter :=
  match rl.visitors.lookup ip with
  | none => (true, ⟨rl.visitors.insert ip { lastSeen := now, count := 1 }⟩)
  | some v =>
    if Since now v.lastSeen > Minute then
      (true, ⟨rl.visitors.insert ip { v with count := 1, lastSeen := now }⟩)
    else if v.count ≥ 100 then
      (false, rl)
    else
      (true, ⟨rl.visitors.insert ip { v with count := v.count + 1 }⟩)

/-- `RateLimiter.cleanupVisitors`: range over the entries, deleting the key of
every entry whose record is older than a minute. -/
def RateLimiter.cleanupVisitors (rl : RateLimiter) (now : Int) : RateLimiter :=
  ⟨rl.visitors.entries.foldl
    (fun m e => if Since now e.2.lastSeen > Minute then m.erase e.1 else m)
    rl.visitors⟩

/-- One operation on the limiter: a call of `Allow` or one pass of the
background sweep, each with the clock reading it sees. -/
inductive Op where
  | allow (ip : String) (now : Int)
  | sweep (now : Int)
  deriving DecidableEq, Repr

/-- The limiter after one operation. -/
def RateLimiter.step (rl : RateLimiter) : Op → RateLimiter
  | .allow ip now => (rl.Allow ip now).2
  | .sweep now => rl.cleanupVisitors now

/-- The limiter after a sequence of operations, first to last. -/
def RateLimiter.run (rl : RateLimiter) (ops : List Op) : RateLimiter :=
  ops.foldl RateLimiter.step rl

/-- Successive `Allow` calls for one client at the given times: the decisions
in call order and the final limiter. -/
def RateLimiter.allowSeq (rl : RateLimiter) (ip : String) : List Int → List Bool × RateLimiter
  | [] => ([], rl)
  | t :: ts =>
    ((rl.Allow ip t).1 :: ((rl.Allow ip t).2.allowSeq ip ts).1,
      ((rl.Allow ip t).2.allowSeq ip ts).2)

/-- Whether an operation is a call of `Allow` for the client `ip`. -/
def Op.isAllowOf (ip : String) : Op → Bool
  | .allow ip' _ => decide (ip' = ip)
  | .sweep _ => false

/-- Every record of the limiter has `1 ≤ count ≤ 100`. -/
def RateLimiter.CountBounded (rl : RateLimiter) : Prop :=
  ∀ (ip : String) (v : Visitor), rl.visitors.lookup ip = some v → 1 ≤ v.count ∧ v.count ≤ 100

/-- Number of admitted calls among the calls whose time lies in the interval
`[a, a + Minute]`; `ts` are the call times and `rs` the decisions. -/
def admittedIn (a : Int) (ts : List Int) (rs : List Bool) : Nat :=
  ((ts.zip rs).filter
    (fun p => decide (a ≤ p.1) && decide (p.1 ≤ a + Minute) && p.2)).length

/-- Call times of a burst across a window boundary: one call at time 0, then
99 calls at 59 s and 100 calls at 61 s. -/
def burst : List Int :=
  0 :: (List.replicate 99 59000000000 ++ List.replicate 100 61000000000)

/-! ## Integer arithmetic: `multiply.go` and `divide.go`

An `int64` (and an `int`, on the 64-bit platforms) is an `Int` in the range
`InInt64`; an `error` is an `Option String`, `none` for `nil`. -/

/-- Go `math.MaxInt64`. -/
def MaxInt64 : Int := 9223372036854775807

/-- Go `math.MinInt64`. -/
def MinInt64 : Int := -9223372036854775808

/-- The values of type `int64`. -/
def InInt64 (x : Int) : Prop := MinInt64 ≤ x ∧ x ≤ MaxInt64

instance (x : Int) : Decidable (InInt64 x) :=
  inferInstanceAs (Decidable (MinInt64 ≤ x ∧ x ≤ MaxInt64))

/-- The value an `int64` holds after an operation whose exact result is `x`
(two's-complement wraparound). -/
def wrap64 (x : Int) : Int :=
  (x + 9223372036854775808) % 18446744073709551616 - 9223372036854775808

/-- Go `x / y` on `int64`, for `y ≠ 0`: the quotient truncated toward zero,
wrapped to `int64` (so `MinInt64 / -1` is `MinInt64`). The source never
divides by zero: every division stands behind a test of its divisor. -/
def div64 (x y : Int) : Int := wrap64 (Int.tdiv x y)

/-- Go `x % y` on `int64`, for `y ≠ 0`: the remainder of the truncated
division. -/
def mod64 (x y : Int) : Int := wrap64 (Int.tmod x y)

/-- `MultiplyIntegers` (`multiply.go`): the numeric result and the error
(`none` is `nil`). -/
def MultiplyIntegers (a b : Int) : Int × Option String :=
  if a = 0 ∨ b = 0 then (0, none)
  else if a > 0 ∧ b > 0 ∧ a > div64 MaxInt64 b then
    (0, some "integer overflow: result too large")
  else if a < 0 ∧ b < 0 ∧ a < div64 MaxInt64 b then
    (0, some "integer overflow: result too large")
  else if (a > 0 ∧ b < 0 ∧ b < div64 MinInt64 a) ∨ (a < 0 ∧ b > 0 ∧ a < div64 MinInt64 b) then
    (0, some "integer underflow: result too small")
  else (wrap64 (a * b), none)

/-- `Factorial` (`multiply.go`): the numeric result and the error. The loop
`for i := 2; i <= n; i++` runs its body for `i = 2, ..., n` in turn. -/
def Factorial (n : Int) : Int × Option String :=
  if n < 0 then (0, some "factorial is not defined for negative numbers")
  else if n = 0 ∨ n = 1 then (1, none)
  else if n > 20 then (0, some "factorial overflow: number too large")
  else
    ((List.range' 2 (n.toNat - 1)).foldl (fun result i => wrap64 (result * (i : Int))) 1, none)

/-- `DivideIntegers` (`divide.go`): quotient, remainder and error. -/
def DivideIntegers (a b : Int) : Int × Int × Option String :=
  if b = 0 then (0, 0, some "division by zero")
  else (div64 a b, mod64 a b, none)

/-! ## Request helpers of `main.go`: `sanitizeInput`, `validateFormInput`, `getClientIP`

A Go `string` is its sequence of bytes, a `List UInt8`; `len` is
`List.length` and `s[:n]` is `List.take n`. The library function
`strings.TrimSpace` is an argument `TrimSpace` of the definitions that call
it, so what is proved holds whatever it returns. -/

/-- The bytes of a string literal of ASCII characters. -/
def bytes (s : String) : List UInt8 :=
  s.toList.map (fun c => c.toNat.toUInt8)

/-- The ASCII white space of Go `strings.TrimSpace`:
tab, line feed, vertical tab, form feed, carriage return and space. -/
def isAsciiSpace (c : UInt8) : Bool :=
  c = 9 || c = 10 || c = 11 || c = 12 || c = 13 || c = 32

/-- Go `strings.TrimSpace` on a string of ASCII bytes, where white space is
`isAsciiSpace`: leading and trailing white space removed. -/
def trimSpaceASCII (s : List UInt8) : List UInt8 :=
  ((s.dropWhile isAsciiSpace).reverse.dropWhile isAsciiSpace).reverse

/-- What Go `html.EscapeString` writes for one byte: it replaces `&`, the
single quote, `<`, `>` and the double quote and copies every other byte. -/
def escapeByte (c : UInt8) : List UInt8 :=
  if c = 38 then bytes "&amp;"
  else if c = 39 then bytes "&#39;"
  else if c = 60 then bytes "&lt;"
  else if c = 62 then bytes "&gt;"
  else if c = 34 then bytes "&#34;"
  else [c]

/-- Go `html.EscapeString`. -/
def EscapeString (s : List UInt8) : List UInt8 :=
  s.flatMap escapeByte

/-- Go `strings.Split(s, sep)` for a separator of one byte: the pieces of `s`
between the occurrences of `sep`, in order. -/
def Split (s : List UInt8) (sep : UInt8) : List (List UInt8) :=
  match s with
  | [] => [[]]
  | c :: cs =>
    if c = sep then [] :: Split cs sep
    else
      match Split cs sep with
      | [] => [[c]]
      | w :: ws => (c :: w) :: ws

/-- `sanitizeInput` (`main.go`). -/
def sanitizeInput (TrimSpace : List UInt8 → List UInt8) (input : List UInt8) : List UInt8 :=
  let input := TrimSpace input
  let input := EscapeString input
  if input.length > 100 then input.take 100 else input

/-- `validateFormInput` (`main.go`): the error, `none` for `nil`. -/
def validateFormInput (TrimSpace : List UInt8 → List UInt8) (name address : List UInt8) :
    Option String :=
  if (TrimSpace name).length = 0 then some "name is required"
  else if (TrimSpace address).length = 0 then some "address is required"
  else if name.length > 100 then some "name must be less than 100 characters"
  else if address.length > 200 then some "address must be less than 200 characters"
  else none

/-- `getClientIP` (`main.go`) as a function of the values of the headers
`X-Forwarded-For` and `X-Real-IP` (empty when the header is absent) and of
`RemoteAddr`. The result is `none` when an index expression `[0]` is out of
range, which panics in Go. -/
def getClientIP (TrimSpace : List UInt8 → List UInt8) (xff xri remoteAddr : List UInt8) :
    Option (List UInt8) :=
  if xff ≠ [] then
    ((Split xff 44)[0]?).map TrimSpace
  else if xri ≠ [] then
    some xri
  else
    (Split remoteAddr 58)[0]?

/-! ## Binary search: `datastructures/BinarySearch.go`

A slice `[]int` is the `List Int` of its elements; an index is a Go `int`,
here an `Int` (the indices stay between -1 and `len(arr)`, so they never
overflow). A function that can panic on an index returns an `Option`, and so
does a loop whose model takes a bound on its number of iterations. -/


/-- The index expression `arr[i]` for a Go `int` index `i`: `none` stands for
the run-time panic of an index out of range. -/
def index (arr : List Int) (i : Int) : Option Int :=
  if 0 ≤ i then arr[i.toNat]? else none

/-- The loop of `BinarySearch` with the variables `left` and `right`. The
first argument bounds the number of iterations; the result is `none` when
the bound is used up or `arr[mid]` is out of range. The quotient
`(right-left)/2` is Go's truncated division. -/
def binarySearchLoop (arr : List Int) (target : Int) : Nat → Int → Int → Option Int
  | 0, _, _ => none
  | fuel + 1, left, right =>
    if left ≤ right then
      let mid := left + Int.tdiv (right - left) 2
      match index arr mid with
      | none => none
      | some v =>
        if v = target then some mid
        else if v < target then binarySearchLoop arr target fuel (mid + 1) right
        else binarySearchLoop arr target fuel left (mid - 1)
    else some (-1)

/-- `BinarySearch` (`BinarySearch.go`). -/
def BinarySearch (arr : List Int) (target : Int) : Option Int :=
  binarySearchLoop arr target (arr.length + 1) 0 (arr.length - 1)

/-- The loop of `BinarySearchFirst` with the variables `left`, `right` and
`result`. -/
def binarySearchFirstLoop (arr : List Int) (target : Int) :
    Nat → Int → Int → Int → Option Int
  | 0, _, _, _ => none
  | fuel + 1, left, right, result =>
    if left ≤ right then
      let mid := left + Int.tdiv (right - left) 2
      match index arr mid with
      | none => none
      | some v =>
        if v = target then binarySearchFirstLoop arr target fuel left (mid - 1) mid
        else if v < target then binarySearchFirstLoop arr target fuel (mid + 1) right result
        else binarySearchFirstLoop arr target fuel left (mid - 1) result
    else some result

/-- `BinarySearchFirst` (`BinarySearch.go`). -/
def BinarySearchFirst (arr : List Int) (target : Int) : Option Int :=
  binarySearchFirstLoop arr target (arr.length + 1) 0 (arr.length - 1) (-1)

/-- The loop of `BinarySearchLast` with the variables `left`, `right` and
`result`. -/
def binarySearchLastLoop (arr : List Int) (target : Int) :
    Nat → Int → Int → Int → Option Int
  | 0, _, _, _ => none
  | fuel + 1, left, right, result =>
    if left ≤ right then
      let mid := left + Int.tdiv (right - left) 2
      match index arr mid with
      | none => none
      | some v =>
        if v = target then binarySearchLastLoop arr target fuel (mid + 1) right mid
        else if v < target then binarySearchLastLoop arr target fuel (mid + 1) right result
        else binarySearchLastLoop arr target fuel left (mid - 1) result
    else some result

/-- `BinarySearchLast` (`BinarySearch.go`). -/
def BinarySearchLast (arr : List Int) (target : Int) : Option Int :=
  binarySearchLastLoop arr target (arr.length + 1) 0 (arr.length - 1) (-1)

/-! ## Singly linked list: `datastructures/linkedlist.go`

`Size` is a Go `int`, here an `Int`: it only moves by one per node. -/


/-- A `*Node` (`linkedlist.go`): `nil`, or a pointer to a node with its `Data`
and its `Next`. The lists the operations build are finite and unshared. -/
inductive NodePtr where
  | nil : NodePtr
  | node (Data : Int) (Next : NodePtr) : NodePtr
  deriving DecidableEq, Repr

/-- The struct `LinkedList`. -/
structure LinkedList where
  Head : NodePtr
  Size : Int
  deriving DecidableEq, Repr

/-- `NewLinkedList`. -/
def NewLinkedList : LinkedList := { Head := .nil, Size := 0 }

/-- The nodes reachable from a pointer, as the sequence of their `Data`,
first node first. -/
def NodePtr.toList : NodePtr → List Int
  | .nil => []
  | .node d nx => d :: nx.toList

/-- The number of nodes reachable from a pointer. -/
def NodePtr.count : NodePtr → Nat
  | .nil => 0
  | .node _ nx => nx.count + 1

/-- The loop of `Add` at the node `current` (given by its `Data` and `Next`):
walk while `current.Next != nil`, then set `current.Next = newNode`. The
result is the node `current` after the assignment. -/
def linkAtEnd (newNode : NodePtr) : Int → NodePtr → NodePtr
  | d, .nil => .node d newNode
  | d, .node d' nx => .node d (linkAtEnd newNode d' nx)

/-- `LinkedList.Add`. -/
def LinkedList.Add (ll : LinkedList) (data : Int) : LinkedList :=
  let newNode := NodePtr.node data .nil
  match ll.Head with
  | .nil => { Head := newNode, Size := ll.Size + 1 }
  | .node d nx => { Head := linkAtEnd newNode d nx, Size := ll.Size + 1 }

/-- `LinkedList.AddAtBeginning`. -/
def LinkedList.AddAtBeginning (ll : LinkedList) (data : Int) : LinkedList :=
  { Head := .node data ll.Head, Size := ll.Size + 1 }

/-- The loop of `Delete` at the node `current` (given by its `Data` and
`Next`): the node `current` after the first node behind it that holds `data`
is unlinked, or `none` when the loop ends without finding one. -/
def unlinkAfter (data : Int) : Int → NodePtr → Option NodePtr
  | _, .nil => none
  | d, .node d' nx =>
    if d' = data then some (.node d nx)
    else
      match unlinkAfter data d' nx with
      | some c => some (.node d c)
      | none => none

/-- `LinkedList.Delete`: the returned boolean and the list after the call. -/
def LinkedList.Delete (ll : LinkedList) (data : Int) : Bool × LinkedList :=
  match ll.Head with
  | .nil => (false, ll)
  | .node d nx =>
    if d = data then (true, { Head := nx, Size := ll.Size - 1 })
    else
      match unlinkAfter data d nx with
      | some h => (true, { Head := h, Size := ll.Size - 1 })
      | none => (false, ll)

/-- The loop of `Search` from the node `current` on: whether a node that
holds `data` is reached. -/
def searchFrom (data : Int) : NodePtr → Bool
  | .nil => false
  | .node d nx => if d = data then true else searchFrom data nx

/-- `LinkedList.Search`: the returned boolean and the list after the call
(the function writes nothing). -/
def LinkedList.Search (ll : LinkedList) (data : Int) : Bool × LinkedList :=
  (searchFrom data ll.Head, ll)

/-- `LinkedList.GetSize`. -/
def LinkedList.GetSize (ll : LinkedList) : Int := ll.Size

/-- A call that changes a list. -/
inductive ListOp where
  | add (data : Int)
  | addAtBeginning (data : Int)
  | delete (data : Int)
  deriving DecidableEq, Repr

/-- The list after one call. -/
def LinkedList.apply (ll : LinkedList) : ListOp → LinkedList
  | .add d => ll.Add d
  | .addAtBeginning d => ll.AddAtBeginning d
  | .delete d => (ll.Delete d).2

/-- The list after a sequence of calls, first to last. -/
def LinkedList.applyAll (ll : LinkedList) (ops : List ListOp) : LinkedList :=
  ops.foldl LinkedList.apply ll

/-- `Size` is the number of nodes reachable from `Head`. -/
def LinkedList.SizeOk (ll : LinkedList) : Prop := ll.Size = (ll.Head.count : Int)

/-! ## Sorting: `datastructures/sorting.go`

The elements of a slice are Go `int`s that the sorts only compare and move, so
they are `Int`s. The ascending and the descending variant of a function have
the same text up to their comparison, which is the argument `cmp` of one
shared definition. -/


/-- The assignment `arr[i] = v` for a Go `int` index `i`: the slice after the
assignment, `none` for the panic of an index out of range. -/
def assign (arr : List Int) (i : Int) (v : Int) : Option (List Int) :=
  if 0 ≤ i ∧ i < arr.length then some (arr.set i.toNat v) else none

/-- The assignment `arr[i], arr[j] = arr[j], arr[i]`: both right-hand sides are
read first, then the two elements are written. -/
def swap (arr : List Int) (i j : Int) : Option (List Int) := do
  let aj ← index arr j
  let ai ← index arr i
  let arr ← assign arr i aj
  assign arr j ai

/-- Go `make([]int, n)`: `n` zeros; a negative length panics. -/
def makeSlice (n : Int) : Option (List Int) :=
  if 0 ≤ n then some (List.replicate n.toNat 0) else none

/-- The loop `for j := low; j < high; j++` of `partition` and of
`partitionDescending`, which differ in the comparison `cmp` only
(`arr[j] <= pivot`, `arr[j] >= pivot`). The first argument is the number of
iterations left, `high - j`; the result is the slice and `i` after the
loop. -/
def partitionLoop (cmp : Int → Int → Bool) (pivot : Int) :
    Nat → Int → Int → List Int → Option (List Int × Int)
  | 0, _, i, arr => some (arr, i)
  | n + 1, j, i, arr => do
    let aj ← index arr j
    if cmp aj pivot then
      let arr ← swap arr (i + 1) j
      partitionLoop cmp pivot n (j + 1) (i + 1) arr
    else
      partitionLoop cmp pivot n (j + 1) i arr

/-- The body shared by `partition` and `partitionDescending`: the slice after
the call and the returned pivot index. -/
def partitionBy (cmp : Int → Int → Bool) (arr : List Int) (low high : Int) :
    Option (List Int × Int) := do
  let pivot ← index arr high
  let (arr, i) ← partitionLoop cmp pivot (high - low).toNat low (low - 1) arr
  let arr ← swap arr (i + 1) high
  pure (arr, i + 1)

/-- The body shared by `quickSortHelper` and `quickSortDescendingHelper`: the
slice after the call. The first argument bounds the depth of the recursion. -/
def quickSortHelperBy (cmp : Int → Int → Bool) :
    Nat → List Int → Int → Int → Option (List Int)
  | fuel, arr, low, high =>
    if low < high then
      match fuel with
      | 0 => none
      | fuel + 1 => do
        let (arr, pivotIndex) ← partitionBy cmp arr low high
        let arr ← quickSortHelperBy cmp fuel arr low (pivotIndex - 1)
        quickSortHelperBy cmp fuel arr (pivotIndex + 1) high
    else some arr

/-- What a sorting function leaves behind: the contents of its argument
slice after the call, and the contents of the slice it returns. -/
structure SortOutcome where
  arr : List Int
  result : List Int
  deriving DecidableEq, Repr

/-- `partition` (`sorting.go`). -/
def partition (arr : List Int) (low high : Int) : Option (List Int × Int) :=
  partitionBy (fun a pivot => decide (a ≤ pivot)) arr low high

/-- `quickSortHelper` (`sorting.go`). -/
def quickSortHelper (fuel : Nat) (arr : List Int) (low high : Int) : Option (List Int) :=
  quickSortHelperBy (fun a pivot => decide (a ≤ pivot)) fuel arr low high

/-- `QuickSort` (`sorting.go`): it sorts `arr` in place and returns `arr`. -/
def QuickSort (arr : List Int) : Option SortOutcome :=
  if arr.length ≤ 1 then some { arr := arr, result := arr }
  else do
    let arr ← quickSortHelper arr.length arr 0 (arr.length - 1)
    pure { arr := arr, result := arr }

/-- `partitionDescending` (`sorting.go`). -/
def partitionDescending (arr : List Int) (low high : Int) : Option (List Int × Int) :=
  partitionBy (fun a pivot => decide (a ≥ pivot)) arr low high

/-- `quickSortDescendingHelper` (`sorting.go`). -/
def quickSortDescendingHelper (fuel : Nat) (arr : List Int) (low high : Int) :
    Option (List Int) :=
  quickSortHelperBy (fun a pivot => decide (a ≥ pivot)) fuel arr low high

/-- `QuickSortDescending` (`sorting.go`). -/
def QuickSortDescending (arr : List Int) : Option SortOutcome :=
  if arr.length ≤ 1 then some { arr := arr, result := arr }
  else do
    let arr ← quickSortDescendingHelper arr.length arr 0 (arr.length - 1)
    pure { arr := arr, result := arr }

/-- The loop `for i := 0; i < n; i++ { dst[i] = arr[off+i] }` of `merge`; the
first argument is the number of iterations left. -/
def copyFrom (arr : List Int) (off : Int) : Nat → Int → List Int → Option (List Int)
  | 0, _, dst => some dst
  | n + 1, i, dst => do
    let v ← index arr (off + i)
    let dst ← assign dst i v
    copyFrom arr off n (i + 1) dst

/-- The loop `for i < n1 && j < n2` of `merge` and of `mergeDescending`, which
differ in the comparison `cmp` only (`leftArr[i] <= rightArr[j]`,
`leftArr[i] >= rightArr[j]`). The first argument bounds the number of
iterations; the result is the slice with `i`, `j` and `k` after the loop. -/
def mergeLoop (cmp : Int → Int → Bool) (leftArr rightArr : List Int) (n1 n2 : Int) :
    Nat → Int → Int → Int → List Int → Option (List Int × Int × Int × Int)
  | fuel, i, j, k, arr =>
    if i < n1 ∧ j < n2 then
      match fuel with
      | 0 => none
      | fuel + 1 => do
        let li ← index leftArr i
        let rj ← index rightArr j
        if cmp li rj then
          let arr ← assign arr k li
          mergeLoop cmp leftArr rightArr n1 n2 fuel (i + 1) j (k + 1) arr
        else
          let arr ← assign arr k rj
          mergeLoop cmp leftArr rightArr n1 n2 fuel i (j + 1) (k + 1) arr
    else some (arr, i, j, k)

/-- The loops `for i < n { arr[k] = src[i]; i++; k++ }` that copy what is left
of a temporary array; the first argument is the number of iterations left,
`n - i`. The result is the slice and `k` after the loop. -/
def copyRest (src : List Int) : Nat → Int → Int → List Int → Option (List Int × Int)
  | 0, _, k, arr => some (arr, k)
  | n + 1, i, k, arr => do
    let v ← index src i
    let arr ← assign arr k v
    copyRest src n (i + 1) (k + 1) arr

/-- The body shared by `merge` and `mergeDescending`: the slice after the
call. -/
def mergeBy (cmp : Int → Int → Bool) (arr : List Int) (left mid right : Int) :
    Option (List Int) := do
  let n1 := mid - left + 1
  let n2 := right - mid
  let leftArr ← makeSlice n1
  let rightArr ← makeSlice n2
  let leftArr ← copyFrom arr left n1.toNat 0 leftArr
  let rightArr ← copyFrom arr (mid + 1) n2.toNat 0 rightArr
  let (arr, i, j, k) ← mergeLoop cmp leftArr rightArr n1 n2 (n1 + n2).toNat 0 0 left arr
  let (arr, k) ← copyRest leftArr (n1 - i).toNat i k arr
  let (arr, _) ← copyRest rightArr (n2 - j).toNat j k arr
  pure arr

/-- The body shared by `mergeSortHelper` and `mergeSortDescendingHelper`: the
slice after the call. The first argument bounds the depth of the recursion;
`(right-left)/2` is Go's truncated division. -/
def mergeSortHelperBy (cmp : Int → Int → Bool) :
    Nat → List Int → Int → Int → Option (List Int)
  | fuel, arr, left, right =>
    if left < right then
      match fuel with
      | 0 => none
      | fuel + 1 => do
        let mid := left + Int.tdiv (right - left) 2
        let arr ← mergeSortHelperBy cmp fuel arr left mid
        let arr ← mergeSortHelperBy cmp fuel arr (mid + 1) right
        mergeBy cmp arr left mid right
    else some arr

/-- `merge` (`sorting.go`). -/
def merge (arr : List Int) (left mid right : Int) : Option (List Int) :=
  mergeBy (fun l r => decide (l ≤ r)) arr left mid right

/-- `mergeSortHelper` (`sorting.go`). -/
def mergeSortHelper (fuel : Nat) (arr : List Int) (left right : Int) : Option (List Int) :=
  mergeSortHelperBy (fun l r => decide (l ≤ r)) fuel arr left right

/-- `MergeSort` (`sorting.go`): it sorts a copy of `arr` and returns the copy;
a slice of at most one element is returned as it is. -/
def MergeSort (arr : List Int) : Option SortOutcome :=
  if arr.length ≤ 1 then some { arr := arr, result := arr }
  else do
    let result ← makeSlice arr.length
    let result := arr.take result.length ++ result.drop arr.length
    let result ← mergeSortHelper result.length result 0 (result.length - 1)
    pure { arr := arr, result := result }

/-- `mergeDescending` (`sorting.go`). -/
def mergeDescending (arr : List Int) (left mid right : Int) : Option (List Int) :=
  mergeBy (fun l r => decide (l ≥ r)) arr left mid right

/-- `mergeSortDescendingHelper` (`sorting.go`). -/
def mergeSortDescendingHelper (fuel : Nat) (arr : List Int) (left right : Int) :
    Option (List Int) :=
  mergeSortHelperBy (fun l r => decide (l ≥ r)) fuel arr left right

/-- `MergeSortDescending` (`sorting.go`). -/
def MergeSortDescending (arr : List Int) : Option SortOutcome :=
  if arr.length ≤ 1 then some { arr := arr, result := arr }
  else do
    let result ← makeSlice arr.length
    let result := arr.take result.length ++ result.drop arr.length
    let result ← mergeSortDescendingHelper result.length result 0 (result.length - 1)
    pure { arr := arr, result := result }

/-! ## Basic facts -/

theorem since_gt_minute_iff (now t : Int) : Since now t > Minute ↔ now - t > Minute := by
  unfold Since Minute maxDuration minDuration
  split_ifs <;> omega

/-- `Allow` for a client without a record. -/
theorem allow_of_none {rl : RateLimiter} {ip : String} (now : Int)
    (h : rl.visitors.lookup ip = none) :
    rl.Allow ip now = (true, ⟨rl.visitors.insert ip { lastSeen := now, count := 1 }⟩) := by
  simp [RateLimiter.Allow, h]

/-- `Allow` for a client whose record is older than a minute. -/
theorem allow_of_expired {rl : RateLimiter} {ip : String} {v : Visitor} {now : Int}
    (h : rl.visitors.lookup ip = some v) (hexp : now - v.lastSeen > Minute) :
    rl.Allow ip now = (true, ⟨rl.visitors.insert ip { lastSeen := now, count := 1 }⟩) := by
  have hs : Since now v.lastSeen > Minute := (since_gt_minute_iff _ _).2 hexp
  simp [RateLimiter.Allow, h, hs]

/-- `Allow` for a client inside its window that has used up the limit. -/
theorem allow_of_full {rl : RateLimiter} {ip : String} {v : Visitor} {now : Int}
    (h : rl.visitors.lookup ip = some v) (hwin : now - v.lastSeen ≤ Minute)
    (hc : 100 ≤ v.count) :
    rl.Allow ip now = (false, rl) := by
  have hs : ¬ Since now v.lastSeen > Minute := fun hgt => by
    have := (since_gt_minute_iff _ _).1 hgt
    omega
  simp [RateLimiter.Allow, h, hs, hc]

/-- `Allow` for a client inside its window with budget left. -/
theorem allow_of_room {rl : RateLimiter} {ip : String} {v : Visitor} {now : Int}
    (h : rl.visitors.lookup ip = some v) (hwin : now - v.lastSeen ≤ Minute)
    (hc : v.count < 100) :
    rl.Allow ip now =
      (true, ⟨rl.visitors.insert ip { lastSeen := v.lastSeen, count := v.count + 1 }⟩) := by
  have hs : ¬ Since now v.lastSeen > Minute := fun hgt => by
    have := (since_gt_minute_iff _ _).1 hgt
    omega
  have hc2 : ¬ 100 ≤ v.count := by omega
  simp [RateLimiter.Allow, h, hs, hc2]

/-- `Allow` for one client never touches the record of another. -/
theorem allow_lookup_ne (rl : RateLimiter) {ip other : String} (now : Int) (hne : other ≠ ip) :
    (rl.Allow ip now).2.visitors.lookup other = rl.visitors.lookup other := by
  unfold RateLimiter.Allow
  split
  · simp [AList.lookup_insert_ne hne]
  · split_ifs <;> simp [AList.lookup_insert_ne hne]

/-- The keys after `Allow`: the client's own id and the keys there were. -/
theorem allow_mem (rl : RateLimiter) (ip other : String) (now : Int) :
    other ∈ (rl.Allow ip now).2.visitors ↔ other = ip ∨ other ∈ rl.visitors := by
  unfold RateLimiter.Allow
  split
  · simp [AList.mem_insert]
  · rename_i v hv
    have hmem : ip ∈ rl.visitors := by
      rw [← AList.lookup_isSome, hv]; rfl
    split_ifs <;> simp [AList.mem_insert]
    intro h; subst h; exact hmem

/-- The loop of the sweep over any list of entries: a record survives exactly
when it was there and no visited entry of its key is older than a minute. -/
theorem sweep_fold_lookup (now : Int) (ip : String) (v : Visitor) :
    ∀ (l : List (Sigma fun _ : String => Visitor)) (m : AList fun _ : String => Visitor),
      (l.foldl (fun m e => if Since now e.2.lastSeen > Minute then m.erase e.1 else m) m).lookup ip
          = some v ↔
        m.lookup ip = some v ∧ ∀ e ∈ l, e.1 = ip → ¬ Since now e.2.lastSeen > Minute := by
  intro l
  induction l with
  | nil => intro m; simp
  | cons e l ih =>
    intro m
    rw [List.foldl_cons, ih]
    by_cases hexp : Since now e.2.lastSeen > Minute
    · by_cases hk : e.1 = ip
      · subst hk
        simp [hexp, AList.lookup_erase]
      · have hk2 : ip ≠ e.1 := fun h => hk h.symm
        simp [hexp, AList.lookup_erase_ne hk2, hk]
    · have hle : Since now e.2.lastSeen ≤ Minute := not_lt.1 hexp
      simp [hexp, hle]

/-- The record of a client after the sweep. -/
theorem cleanup_lookup (rl : RateLimiter) (now : Int) (ip : String) (v : Visitor) :
    (rl.cleanupVisitors now).visitors.lookup ip = some v ↔
      rl.visitors.lookup ip = some v ∧ now - v.lastSeen ≤ Minute := by
  unfold RateLimiter.cleanupVisitors
  rw [sweep_fold_lookup]
  constructor
  · rintro ⟨hv, hall⟩
    refine ⟨hv, ?_⟩
    have hmem : (⟨ip, v⟩ : Sigma fun _ : String => Visitor) ∈ rl.visitors.entries :=
      AList.mem_lookup_iff.1 (by rw [hv]; exact rfl)
    have := hall _ hmem rfl
    rw [since_gt_minute_iff] at this
    simpa using this
  · rintro ⟨hv, hle⟩
    refine ⟨hv, ?_⟩
    rintro ⟨k, w⟩ hmem hk
    simp only at hk
    subst hk
    have hw : w ∈ rl.visitors.lookup k := AList.mem_lookup_iff.2 hmem
    rw [hv] at hw
    have hwv : v = w := by simpa using hw
    subst hwv
    rw [since_gt_minute_iff]
    simpa using hle

/-- The sweep never adds a key. -/
theorem cleanup_lookup_none (rl : RateLimiter) (now : Int) (ip : String)
    (h : rl.visitors.lookup ip = none) :
    (rl.cleanupVisitors now).visitors.lookup ip = none := by
  cases hc : (rl.cleanupVisitors now).visitors.lookup ip with
  | none => rfl
  | some v =>
    have := ((cleanup_lookup rl now ip v).1 hc).1
    rw [h] at this
    exact absurd this (by simp)

/-- The client's own record after `Allow`, in each of the four branches. -/
theorem allow_lookup_self (rl : RateLimiter) (ip : String) (now : Int) :
    (rl.Allow ip now).2.visitors.lookup ip =
      match rl.visitors.lookup ip with
      | none => some { lastSeen := now, count := 1 }
      | some v =>
        if Since now v.lastSeen > Minute then some { lastSeen := now, count := 1 }
        else if v.count ≥ 100 then some v
        else some { lastSeen := v.lastSeen, count := v.count + 1 } := by
  unfold RateLimiter.Allow
  cases h : rl.visitors.lookup ip with
  | none => simp
  | some v =>
    simp only
    split_ifs <;> simp [h]

theorem allow_countBounded (rl : RateLimiter) (ip : String) (now : Int)
    (h : rl.CountBounded) : (rl.Allow ip now).2.CountBounded := by
  intro other w hw
  by_cases hne : other = ip
  · subst hne
    rw [allow_lookup_self] at hw
    split at hw
    · cases hw; simp
    · rename_i v hv
      have hb := h _ _ hv
      split_ifs at hw with h1 h2
      · cases hw; simp
      · cases hw; exact hb
      · cases hw
        simp only
        omega
  · rw [allow_lookup_ne rl now hne] at hw
    exact h _ _ hw

theorem cleanup_countBounded (rl : RateLimiter) (now : Int)
    (h : rl.CountBounded) : (rl.cleanupVisitors now).CountBounded :=
  fun ip v hv => h ip v ((cleanup_lookup rl now ip v).1 hv).1

theorem step_countBounded (rl : RateLimiter) (op : Op)
    (h : rl.CountBounded) : (rl.step op).CountBounded := by
  cases op with
  | allow ip now => exact allow_countBounded rl ip now h
  | sweep now => exact cleanup_countBounded rl now h

theorem run_countBounded (ops : List Op) :
    ∀ rl : RateLimiter, rl.CountBounded → (rl.run ops).CountBounded := by
  induction ops with
  | nil => intro rl h; exact h
  | cons op ops ih =>
    intro rl h
    exact ih (rl.step op) (step_countBounded rl op h)

theorem new_countBounded : NewRateLimiter.CountBounded := by
  intro ip v hv
  simp [NewRateLimiter] at hv

/-- An operation that is not an `Allow` of `ip` leaves `ip` without a record
when it had none. -/
theorem step_lookup_none (rl : RateLimiter) (op : Op) (ip : String)
    (hop : op.isAllowOf ip = false) (h : rl.visitors.lookup ip = none) :
    (rl.step op).visitors.lookup ip = none := by
  cases op with
  | allow ip' now =>
    have hne : ip ≠ ip' := by
      intro e
      simp [Op.isAllowOf, e] at hop
    simp only [RateLimiter.step]
    rw [allow_lookup_ne rl now hne]
    exact h
  | sweep now => exact cleanup_lookup_none rl now ip h

theorem run_lookup_none (ip : String) (ops : List Op) :
    ∀ rl : RateLimiter, (∀ op ∈ ops, op.isAllowOf ip = false) →
      rl.visitors.lookup ip = none → (rl.run ops).visitors.lookup ip = none := by
  induction ops with
  | nil => intro rl _ h; exact h
  | cons op ops ih =>
    intro rl hops h
    exact ih (rl.step op) (fun o ho => hops o (List.mem_cons_of_mem _ ho))
      (step_lookup_none rl op ip (hops op (List.mem_cons_self _ _)) h)

/-- The keys after a run of `Allow` calls: the keys there were and the ids
of the calls. -/
theorem run_allow_mem (other : String) (calls : List (String × Int)) :
    ∀ rl : RateLimiter,
      other ∈ (rl.run (calls.map fun c => Op.allow c.1 c.2)).visitors ↔
        other ∈ rl.visitors ∨ other ∈ calls.map Prod.fst := by
  induction calls with
  | nil => intro rl; simp [RateLimiter.run]
  | cons c calls ih =>
    intro rl
    have := ih (rl.step (Op.allow c.1 c.2))
    simp only [RateLimiter.run, List.map_cons, List.foldl_cons] at this ⊢
    rw [this]
    simp only [RateLimiter.step, allow_mem, List.mem_cons]
    tauto

/-- Calls inside the window of a record with count `c`: the call with index
`k` is admitted exactly when `c + k < 100`. -/
theorem allowSeq_in_window (ip : String) (t0 : Int) :
    ∀ (ts : List Int) (rl : RateLimiter) (c : Int),
      rl.visitors.lookup ip = some ⟨t0, c⟩ → (∀ t ∈ ts, t - t0 ≤ Minute) →
        (rl.allowSeq ip ts).1
          = (List.range ts.length).map (fun k : Nat => decide (c + (k : Int) < 100)) := by
  intro ts
  induction ts with
  | nil => intro rl c _ _; rfl
  | cons t ts ih =>
    intro rl c hrl hts
    have ht : t - t0 ≤ Minute := hts t (List.mem_cons_self _ _)
    have hts2 : ∀ u ∈ ts, u - t0 ≤ Minute := fun u hu => hts u (List.mem_cons_of_mem _ hu)
    rw [List.length_cons, List.range_succ_eq_map, List.map_cons, List.map_map]
    by_cases hc : c < 100
    · have hA := allow_of_room hrl ht hc
      simp only at hA
      have hnext : (rl.Allow ip t).2.visitors.lookup ip = some ⟨t0, c + 1⟩ := by
        rw [hA]; simp
      simp only [RateLimiter.allowSeq]
      rw [ih _ (c + 1) hnext hts2, hA]
      simp only [Nat.cast_zero, add_zero, hc, decide_True, List.cons.injEq, true_and]
      apply List.map_congr_left
      intro k _
      simp only [Function.comp, Nat.cast_succ]
      congr 1
      apply propext
      constructor <;> intro h <;> omega
    · have hc2 : 100 ≤ c := by omega
      have hA := allow_of_full hrl ht hc2
      simp only [RateLimiter.allowSeq]
      rw [hA]
      simp only
      rw [ih rl c hrl hts2]
      simp only [Nat.cast_zero, add_zero, hc, decide_False, List.cons.injEq, true_and]
      apply List.map_congr_left
      intro k _
      simp only [Function.comp, Nat.cast_succ]
      congr 1
      apply propext
      constructor <;> intro h <;> omega

/-- Among the first `n` calls of a window, `min n 100` are admitted. -/
theorem count_true_window (n : Nat) :
    ((List.range n).map (fun k : Nat => decide (k + 1 ≤ 100))).count true = min n 100 := by
  induction n with
  | zero => rfl
  | succ n ih =>
    rw [List.range_succ, List.map_append, List.count_append, ih]
    by_cases h : n + 1 ≤ 100
    · have hd : decide (n + 1 ≤ 100) = true := decide_eq_true h
      simp only [List.map_cons, List.map_nil, hd, List.count_cons_self, List.count_nil]
      omega
    · have hd : decide (n + 1 ≤ 100) = false := decide_eq_false h
      have hne : (false == true) = false := rfl
      simp only [List.map_cons, List.map_nil, hd, List.count_cons, List.count_nil, hne]
      simp only [Bool.false_eq_true, if_false]
      omega

/-- Among the first `n` calls of a window, the calls after the 100th are
rejected. -/
theorem count_false_window (n : Nat) :
    ((List.range n).map (fun k : Nat => decide (k + 1 ≤ 100))).count false = n - 100 := by
  induction n with
  | zero => rfl
  | succ n ih =>
    rw [List.range_succ, List.map_append, List.count_append, ih]
    by_cases h : n + 1 ≤ 100
    · have hd : decide (n + 1 ≤ 100) = true := decide_eq_true h
      have hne : (true == false) = false := rfl
      simp only [List.map_cons, List.map_nil, hd, List.count_cons, List.count_nil, hne]
      simp only [Bool.false_eq_true, if_false]
      omega
    · have hd : decide (n + 1 ≤ 100) = false := decide_eq_false h
      simp only [List.map_cons, List.map_nil, hd, List.count_cons_self, List.count_nil]
      omega

/-! ## `Allow` -/

/-- C1: for a client id with no record, `Allow` returns true and the resulting
state maps the id to a record with `count = 1` and `lastSeen = now`. -/
theorem allow_fresh (rl : RateLimiter) (ip : String) (now : Int)
    (h : rl.visitors.lookup ip = none) :
    (rl.Allow ip now).1 = true ∧
      (rl.Allow ip now).2.visitors.lookup ip = some { lastSeen := now, count := 1 } := by
  simp [RateLimiter.Allow, h]

theorem allow_fresh_witness :
    NewRateLimiter.visitors.lookup "127.0.0.1" = none ∧
      ((NewRateLimiter.Allow "127.0.0.1" 5).1 = true ∧
        (NewRateLimiter.Allow "127.0.0.1" 5).2.visitors.lookup "127.0.0.1"
          = some { lastSeen := 5, count := 1 }) :=
  ⟨rfl, allow_fresh NewRateLimiter "127.0.0.1" 5 rfl⟩

/-- C2: each window grants exactly 100 admits: from a state in which the
client has no record or an expired one, for calls at non-decreasing times all
less than a minute after the first, the `k`-th call (counted from 1) returns
true exactly when `k ≤ 100`; so `min n 100` of `n` calls are admitted and
`n - 100` rejected. (The order of the times is not used by the proof: only
that every later call is less than a minute after the first.) -/
theorem window_grants_exactly_limit (rl : RateLimiter) (ip : String) (t1 : Int)
    (rest : List Int)
    (h0 : rl.visitors.lookup ip = none ∨
      ∃ v, rl.visitors.lookup ip = some v ∧ t1 - v.lastSeen > Minute)
    (_hmono : (t1 :: rest).Pairwise (· ≤ ·))
    (hwin : ∀ t ∈ rest, t - t1 < Minute) :
    (rl.allowSeq ip (t1 :: rest)).1
        = (List.range (rest.length + 1)).map (fun k : Nat => decide (k + 1 ≤ 100)) ∧
      (rl.allowSeq ip (t1 :: rest)).1.count true = min (rest.length + 1) 100 ∧
      (rl.allowSeq ip (t1 :: rest)).1.count false = rest.length + 1 - 100 := by
  have hfirst : rl.Allow ip t1
      = (true, ⟨rl.visitors.insert ip { lastSeen := t1, count := 1 }⟩) := by
    rcases h0 with h | ⟨v, hv, hexp⟩
    · exact allow_of_none t1 h
    · exact allow_of_expired hv hexp
  have hres : (rl.allowSeq ip (t1 :: rest)).1
      = (List.range (rest.length + 1)).map (fun k : Nat => decide (k + 1 ≤ 100)) := by
    simp only [RateLimiter.allowSeq]
    rw [hfirst]
    simp only
    rw [allowSeq_in_window ip t1 rest _ 1 (by simp)
      (fun t ht => le_of_lt (hwin t ht))]
    rw [List.range_succ_eq_map, List.map_cons, List.map_map]
    simp only [zero_add, Nat.one_le_ofNat, decide_True, List.cons.injEq, true_and]
    apply List.map_congr_left
    intro k _
    simp only [Function.comp]
    congr 1
    apply propext
    constructor <;> intro h <;> omega
  rw [hres]
  exact ⟨rfl, count_true_window _, count_false_window _⟩

set_option maxRecDepth 100000 in
theorem window_grants_exactly_limit_witness :
    (NewRateLimiter.visitors.lookup "10.0.0.1" = none ∨
        ∃ v, NewRateLimiter.visitors.lookup "10.0.0.1" = some v ∧ (0 : Int) - v.lastSeen > Minute) ∧
      ((0 : Int) :: (List.range 149).map (fun k => (k : Int) + 1)).Pairwise (· ≤ ·) ∧
      (∀ t ∈ (List.range 149).map (fun k => (k : Int) + 1), t - 0 < Minute) ∧
      ((NewRateLimiter.allowSeq "10.0.0.1"
            (0 :: (List.range 149).map (fun k => (k : Int) + 1))).1
          = (List.range (((List.range 149).map (fun k => (k : Int) + 1)).length + 1)).map
              (fun k : Nat => decide (k + 1 ≤ 100)) ∧
        (NewRateLimiter.allowSeq "10.0.0.1"
            (0 :: (List.range 149).map (fun k => (k : Int) + 1))).1.count true
          = min (((List.range 149).map (fun k => (k : Int) + 1)).length + 1) 100 ∧
        (NewRateLimiter.allowSeq "10.0.0.1"
            (0 :: (List.range 149).map (fun k => (k : Int) + 1))).1.count false
          = ((List.range 149).map (fun k => (k : Int) + 1)).length + 1 - 100) :=
  ⟨Or.inl rfl, by decide, by decide,
    window_grants_exactly_limit NewRateLimiter "10.0.0.1" 0
      ((List.range 149).map (fun k => (k : Int) + 1)) (Or.inl rfl) (by decide) (by decide)⟩

/-- C3: a rejection changes nothing: when `Allow` returns false the limiter
after the call is the limiter before it, so the client's `count` and
`lastSeen` are what they were. -/
theorem allow_reject_unchanged (rl : RateLimiter) (ip : String) (now : Int)
    (h : (rl.Allow ip now).1 = false) :
    (rl.Allow ip now).2 = rl ∧
      (rl.Allow ip now).2.visitors.lookup ip = rl.visitors.lookup ip := by
  have key : (rl.Allow ip now).2 = rl := by
    unfold RateLimiter.Allow at h ⊢
    split at h
    · simp at h
    · split_ifs at h ⊢
      simp_all
  exact ⟨key, by rw [key]⟩

theorem allow_reject_unchanged_witness :
    ((RateLimiter.mk (AList.singleton "10.0.0.1" ⟨0, 100⟩)).Allow "10.0.0.1" 5).1 = false ∧
      (((RateLimiter.mk (AList.singleton "10.0.0.1" ⟨0, 100⟩)).Allow "10.0.0.1" 5).2
          = RateLimiter.mk (AList.singleton "10.0.0.1" ⟨0, 100⟩) ∧
        ((RateLimiter.mk (AList.singleton "10.0.0.1" ⟨0, 100⟩)).Allow "10.0.0.1" 5).2.visitors.lookup
            "10.0.0.1"
          = (RateLimiter.mk (AList.singleton "10.0.0.1" ⟨0, 100⟩)).visitors.lookup "10.0.0.1") :=
  ⟨by decide, allow_reject_unchanged _ "10.0.0.1" 5 (by decide)⟩

/-- C5: hard reset on expiry: a client whose record is older than a minute is
admitted whatever its count, and its record becomes `count = 1`,
`lastSeen = now`. -/
theorem allow_expired_resets (rl : RateLimiter) (ip : String) (now : Int) (v : Visitor)
    (h : rl.visitors.lookup ip = some v) (hexp : now - v.lastSeen > Minute) :
    (rl.Allow ip now).1 = true ∧
      (rl.Allow ip now).2.visitors.lookup ip = some { lastSeen := now, count := 1 } := by
  rw [allow_of_expired h hexp]
  simp

theorem allow_expired_resets_witness :
    (RateLimiter.mk (AList.singleton "10.0.0.1" ⟨0, 100⟩)).visitors.lookup "10.0.0.1"
        = some ⟨0, 100⟩ ∧
      (60000000001 : Int) - (Visitor.mk 0 100).lastSeen > Minute ∧
      (((RateLimiter.mk (AList.singleton "10.0.0.1" ⟨0, 100⟩)).Allow "10.0.0.1" 60000000001).1
          = true ∧
        ((RateLimiter.mk (AList.singleton "10.0.0.1" ⟨0, 100⟩)).Allow "10.0.0.1"
            60000000001).2.visitors.lookup "10.0.0.1"
          = some { lastSeen := 60000000001, count := 1 }) :=
  ⟨by decide, by decide,
    allow_expired_resets _ "10.0.0.1" 60000000001 ⟨0, 100⟩ (by decide) (by decide)⟩

/-- C6: fixed-window anchoring: inside the window and below the limit the
client is admitted, `count` grows by exactly one and `lastSeen` stays. -/
theorem allow_within_window_increments (rl : RateLimiter) (ip : String) (now : Int)
    (v : Visitor) (h : rl.visitors.lookup ip = some v)
    (hwin : now - v.lastSeen ≤ Minute) (hc : v.count < 100) :
    (rl.Allow ip now).1 = true ∧
      (rl.Allow ip now).2.visitors.lookup ip
        = some { lastSeen := v.lastSeen, count := v.count + 1 } := by
  rw [allow_of_room h hwin hc]
  simp

theorem allow_within_window_increments_witness :
    (RateLimiter.mk (AList.singleton "10.0.0.1" ⟨7, 99⟩)).visitors.lookup "10.0.0.1"
        = some ⟨7, 99⟩ ∧
      (60000000007 : Int) - (Visitor.mk 7 99).lastSeen ≤ Minute ∧
      (Visitor.mk 7 99).count < 100 ∧
      (((RateLimiter.mk (AList.singleton "10.0.0.1" ⟨7, 99⟩)).Allow "10.0.0.1" 60000000007).1
          = true ∧
        ((RateLimiter.mk (AList.singleton "10.0.0.1" ⟨7, 99⟩)).Allow "10.0.0.1"
            60000000007).2.visitors.lookup "10.0.0.1"
          = some { lastSeen := (Visitor.mk 7 99).lastSeen, count := (Visitor.mk 7 99).count + 1 }) :=
  ⟨by decide, by decide, by decide,
    allow_within_window_increments _ "10.0.0.1" 60000000007 ⟨7, 99⟩ (by decide) (by decide)
      (by decide)⟩

/-! ## The sweep -/

/-- C7: the sweep removes exactly the expired records: afterwards the map
holds precisely the entries of the prior map whose record has
`now - lastSeen ≤ 1 minute`, each with the record it had, and nothing else. -/
theorem cleanup_removes_exactly_expired (rl : RateLimiter) (now : Int) :
    ∀ (ip : String) (v : Visitor),
      (rl.cleanupVisitors now).visitors.lookup ip = some v ↔
        rl.visitors.lookup ip = some v ∧ now - v.lastSeen ≤ Minute :=
  fun ip v => cleanup_lookup rl now ip v

/-- C8: once a sweep (at time `s`) has removed a client's record, the next
`Allow` for that client, at any time `t` and after any calls for other
clients and further sweeps, behaves as for a fresh client: it returns true
and leaves the record `count = 1`, `lastSeen = t`. -/
theorem allow_after_sweep_is_fresh (rl : RateLimiter) (ip : String) (v : Visitor)
    (s t : Int) (mid : List Op)
    (hv : rl.visitors.lookup ip = some v) (hexp : s - v.lastSeen > Minute)
    (hmid : ∀ op ∈ mid, op.isAllowOf ip = false) :
    (rl.cleanupVisitors s).visitors.lookup ip = none ∧
      ((((rl.cleanupVisitors s).run mid).Allow ip t).1 = true ∧
        (((rl.cleanupVisitors s).run mid).Allow ip t).2.visitors.lookup ip
          = some { lastSeen := t, count := 1 }) := by
  have hgone : (rl.cleanupVisitors s).visitors.lookup ip = none := by
    cases hc : (rl.cleanupVisitors s).visitors.lookup ip with
    | none => rfl
    | some w =>
      have hw := (cleanup_lookup rl s ip w).1 hc
      rw [hv] at hw
      have hvw : v = w := by simpa using hw.1
      subst hvw
      omega
  have hnone := run_lookup_none ip mid (rl.cleanupVisitors s) hmid hgone
  refine ⟨hgone, ?_⟩
  rw [allow_of_none t hnone]
  simp

theorem allow_after_sweep_is_fresh_witness :
    (RateLimiter.mk (AList.singleton "10.0.0.1" ⟨0, 3⟩)).visitors.lookup "10.0.0.1"
        = some ⟨0, 3⟩ ∧
      (60000000001 : Int) - (Visitor.mk 0 3).lastSeen > Minute ∧
      (∀ op ∈ [Op.allow "10.0.0.2" 60000000002, Op.sweep 60000000003],
        op.isAllowOf "10.0.0.1" = false) ∧
      (((RateLimiter.mk (AList.singleton "10.0.0.1" ⟨0, 3⟩)).cleanupVisitors
            60000000001).visitors.lookup "10.0.0.1" = none ∧
        (((((RateLimiter.mk (AList.singleton "10.0.0.1" ⟨0, 3⟩)).cleanupVisitors
              60000000001).run
              [Op.allow "10.0.0.2" 60000000002, Op.sweep 60000000003]).Allow
              "10.0.0.1" 60000000005).1 = true ∧
          ((((RateLimiter.mk (AList.singleton "10.0.0.1" ⟨0, 3⟩)).cleanupVisitors
              60000000001).run
              [Op.allow "10.0.0.2" 60000000002, Op.sweep 60000000003]).Allow
              "10.0.0.1" 60000000005).2.visitors.lookup "10.0.0.1"
            = some { lastSeen := 60000000005, count := 1 })) :=
  ⟨by decide, by decide, by decide,
    allow_after_sweep_is_fresh _ "10.0.0.1" ⟨0, 3⟩ 60000000001 60000000005
      [Op.allow "10.0.0.2" 60000000002, Op.sweep 60000000003]
      (by decide) (by decide) (by decide)⟩

/-! ## Invariants of runs -/

/-- C4: count bound: in every limiter reachable from `NewRateLimiter` by
`Allow` calls and sweeps at any times, every record has `1 ≤ count ≤ 100`. -/
theorem count_bounds_reachable (ops : List Op) (ip : String) (v : Visitor)
    (h : (NewRateLimiter.run ops).visitors.lookup ip = some v) :
    1 ≤ v.count ∧ v.count ≤ 100 :=
  run_countBounded ops NewRateLimiter new_countBounded ip v h

theorem count_bounds_reachable_witness :
    (NewRateLimiter.run
        [Op.allow "10.0.0.1" 0, Op.allow "10.0.0.2" 3, Op.sweep 5,
          Op.allow "10.0.0.1" 7]).visitors.lookup "10.0.0.1" = some ⟨0, 2⟩ ∧
      (1 ≤ (Visitor.mk 0 2).count ∧ (Visitor.mk 0 2).count ≤ 100) :=
  ⟨by decide,
    count_bounds_reachable
      [Op.allow "10.0.0.1" 0, Op.allow "10.0.0.2" 3, Op.sweep 5, Op.allow "10.0.0.1" 7]
      "10.0.0.1" ⟨0, 2⟩ (by decide)⟩

/-- C9: no record is lost or duplicated: after any sequence of `Allow` calls
on the empty limiter the keys of the map are exactly the client ids used,
and their number is the number of distinct ids. -/
theorem keys_eq_ids (calls : List (String × Int)) :
    (∀ ip : String,
        ip ∈ (NewRateLimiter.run (calls.map fun c => Op.allow c.1 c.2)).visitors.keys ↔
          ip ∈ calls.map Prod.fst) ∧
      (NewRateLimiter.run (calls.map fun c => Op.allow c.1 c.2)).visitors.keys.length
        = (calls.map Prod.fst).dedup.length := by
  have hkeys : ∀ ip : String,
      ip ∈ (NewRateLimiter.run (calls.map fun c => Op.allow c.1 c.2)).visitors.keys ↔
        ip ∈ calls.map Prod.fst := by
    intro ip
    rw [← AList.mem_keys, run_allow_mem]
    simp [NewRateLimiter]
  refine ⟨hkeys, ?_⟩
  rw [← List.toFinset_card_of_nodup (AList.keys_nodup _), ← List.card_toFinset]
  congr 1
  ext ip
  simp only [List.mem_toFinset]
  exact hkeys ip

/-! ## The limit across a window boundary -/

set_option maxRecDepth 100000 in
/-- The claim C10 as first stated fails on a burst across a window boundary,
from the empty limiter: the call times are non-decreasing, all 200 calls are
admitted, and 199 of them, not at most 100, lie in the one-minute interval
that starts at 59 s. -/
theorem burst_admits_199_in_a_minute :
    burst.Pairwise (· ≤ ·) ∧
      (NewRateLimiter.allowSeq "10.0.0.1" burst).1 = List.replicate 200 true ∧
      admittedIn 59000000000 burst (NewRateLimiter.allowSeq "10.0.0.1" burst).1 = 199 ∧
      ¬ admittedIn 59000000000 burst (NewRateLimiter.allowSeq "10.0.0.1" burst).1 ≤ 100 := by
  decide

/-! ## The fixed windows of the limiter -/

theorem admittedIn_nil (a : Int) (rs : List Bool) : admittedIn a [] rs = 0 := by
  simp [admittedIn]

/-- Counting the admitted calls of an interval, one call at a time. -/
theorem admittedIn_cons (a t : Int) (ts : List Int) (r : Bool) (rs : List Bool) :
    admittedIn a (t :: ts) (r :: rs) =
      (if a ≤ t ∧ t ≤ a + Minute ∧ r = true then 1 else 0) + admittedIn a ts rs := by
  unfold admittedIn
  rw [List.zip_cons_cons, List.filter_cons]
  by_cases h : a ≤ t ∧ t ≤ a + Minute ∧ r = true
  · obtain ⟨h1, h2, h3⟩ := h
    simp [h1, h2, h3]
    omega
  · rw [if_neg h]
    have : (decide (a ≤ t) && decide (t ≤ a + Minute) && r) = false := by
      by_contra hc
      simp at hc
      tauto
    simp [this]

theorem allowSeq_cons (rl : RateLimiter) (ip : String) (t : Int) (ts : List Int) :
    (rl.allowSeq ip (t :: ts)).1
      = (rl.Allow ip t).1 :: ((rl.Allow ip t).2.allowSeq ip ts).1 := rfl

/-- The limiter after the calls of a sequence that ends with a call at `t`. -/
theorem allowSeq_concat_state (ip : String) (t : Int) :
    ∀ (ts : List Int) (rl : RateLimiter),
      (rl.allowSeq ip (ts ++ [t])).2 = ((rl.allowSeq ip ts).2.Allow ip t).2 := by
  intro ts
  induction ts with
  | nil => intro rl; rfl
  | cons x ts ih =>
    intro rl
    simp only [List.cons_append, RateLimiter.allowSeq]
    exact ih _

/-- After a call at `t` the client has a record, not older than a minute at `t`. -/
theorem allow_leaves_fresh_record (rl : RateLimiter) (ip : String) (t : Int) :
    ∃ v, (rl.Allow ip t).2.visitors.lookup ip = some v ∧ t - v.lastSeen ≤ Minute := by
  rw [allow_lookup_self]
  have hM : (0 : Int) ≤ Minute := by unfold Minute; omega
  cases h : rl.visitors.lookup ip with
  | none => exact ⟨_, rfl, by simp; exact hM⟩
  | some v =>
    simp only
    by_cases hexp : Since t v.lastSeen > Minute
    · rw [if_pos hexp]
      exact ⟨_, rfl, by simp; exact hM⟩
    · rw [if_neg hexp]
      have hle : t - v.lastSeen ≤ Minute := by
        rw [since_gt_minute_iff] at hexp
        omega
      split_ifs
      · exact ⟨_, rfl, hle⟩
      · exact ⟨_, rfl, hle⟩

/-- Calls after the end of the interval are not counted. -/
theorem admittedIn_after (a : Int) (ip : String) :
    ∀ (ts : List Int) (rl : RateLimiter), (∀ t ∈ ts, a + Minute < t) →
      admittedIn a ts (rl.allowSeq ip ts).1 = 0 := by
  intro ts
  induction ts with
  | nil => intro rl _; exact admittedIn_nil a _
  | cons t ts ih =>
    intro rl h
    rw [allowSeq_cons, admittedIn_cons, ih _ (fun x hx => h x (List.mem_cons_of_mem _ hx))]
    have := h t (List.mem_cons_self _ _)
    rw [if_neg (by omega)]

/-- Calls before the start of the interval are not counted. -/
theorem admittedIn_skip_before (a : Int) (ip : String) (rest : List Int) :
    ∀ (before : List Int) (rl : RateLimiter), (∀ t ∈ before, t < a) →
      admittedIn a (before ++ rest) (rl.allowSeq ip (before ++ rest)).1
        = admittedIn a rest ((rl.allowSeq ip before).2.allowSeq ip rest).1 := by
  intro before
  induction before with
  | nil => intro rl _; rfl
  | cons t ts ih =>
    intro rl h
    rw [List.cons_append, allowSeq_cons, admittedIn_cons,
      ih _ (fun x hx => h x (List.mem_cons_of_mem _ hx))]
    have := h t (List.mem_cons_self _ _)
    rw [if_neg (by omega)]
    simp [RateLimiter.allowSeq]

/-- Inside a window that started at `T ≥ a` with `c` calls counted so far, at
most `100 - c` further calls of the interval `[a, a + Minute]` are admitted. -/
theorem admittedIn_window (a : Int) (ip : String) (T : Int) (hT : a ≤ T) :
    ∀ (ts : List Int) (rl : RateLimiter) (c : Int),
      rl.visitors.lookup ip = some ⟨T, c⟩ → c ≤ 100 → ts.Pairwise (· ≤ ·) →
      (admittedIn a ts (rl.allowSeq ip ts).1 : Int) + c ≤ 100 := by
  intro ts
  induction ts with
  | nil =>
    intro rl c _ hc _
    rw [admittedIn_nil]
    simpa using hc
  | cons t ts ih =>
    intro rl c hrl hc hs
    rw [allowSeq_cons, admittedIn_cons]
    obtain ⟨hhead, htail⟩ := List.pairwise_cons.1 hs
    by_cases hin : t ≤ a + Minute
    · have hwin : t - T ≤ Minute := by omega
      by_cases hfull : c < 100
      · have hA := allow_of_room hrl hwin hfull
        simp only at hA
        have hnext : (rl.Allow ip t).2.visitors.lookup ip = some ⟨T, c + 1⟩ := by
          rw [hA]; simp
        have := ih _ (c + 1) hnext (by omega) htail
        split_ifs <;> push_cast <;> omega
      · have hA := allow_of_full hrl hwin (by simpa using hfull)
        rw [hA]
        have := ih rl c hrl hc htail
        simp only [Bool.false_eq_true, and_false, if_false]
        push_cast
        omega
    · rw [admittedIn_after a ip ts _ (fun x hx => by
        have := hhead x hx
        omega)]
      rw [if_neg (by omega)]
      simpa using hc

/-- From a call on, all inside or after the interval `[a, a + Minute]`: a
client without a record gets at most 100 admits in the interval, and a client
whose record has counted `count` calls at most `200 - count`. -/
theorem admittedIn_from_start (a : Int) (ip : String) :
    ∀ (ts : List Int) (rl : RateLimiter), rl.CountBounded → ts.Pairwise (· ≤ ·) →
      (∀ t ∈ ts, a ≤ t) →
      (rl.visitors.lookup ip = none → admittedIn a ts (rl.allowSeq ip ts).1 ≤ 100) ∧
        (∀ v, rl.visitors.lookup ip = some v →
          (admittedIn a ts (rl.allowSeq ip ts).1 : Int) + v.count ≤ 200) := by
  intro ts
  induction ts with
  | nil =>
    intro rl hb _ _
    refine ⟨fun _ => by rw [admittedIn_nil]; omega, fun v hv => ?_⟩
    rw [admittedIn_nil]
    have := hb ip v hv
    push_cast
    omega
  | cons t ts ih =>
    intro rl hb hs hge
    obtain ⟨hhead, htail⟩ := List.pairwise_cons.1 hs
    have hat : a ≤ t := hge t (List.mem_cons_self _ _)
    have hge2 : ∀ x ∈ ts, a ≤ x := fun x hx => hge x (List.mem_cons_of_mem _ hx)
    by_cases hin : t ≤ a + Minute
    · -- a call that opens a window at `t`
      have hopen : ∀ st : RateLimiter,
          st.visitors.lookup ip = some ⟨t, 1⟩ →
            (admittedIn a ts (st.allowSeq ip ts).1 : Int) + 1 ≤ 100 :=
        fun st hst => admittedIn_window a ip t hat ts st 1 hst (by omega) htail
      constructor
      · intro hnone
        rw [allowSeq_cons, admittedIn_cons, allow_of_none t hnone]
        have := hopen ⟨rl.visitors.insert ip { lastSeen := t, count := 1 }⟩ (by simp)
        simp only
        split_ifs <;> omega
      · intro v hv
        have hcb := hb ip v hv
        rw [allowSeq_cons, admittedIn_cons]
        by_cases hexp : t - v.lastSeen > Minute
        · rw [allow_of_expired hv hexp]
          have := hopen ⟨rl.visitors.insert ip { lastSeen := t, count := 1 }⟩ (by simp)
          simp only
          split_ifs <;> push_cast <;> omega
        · have hwin : t - v.lastSeen ≤ Minute := by omega
          by_cases hfull : v.count < 100
          · have hA := allow_of_room hv hwin hfull
            have hnext : (rl.Allow ip t).2.visitors.lookup ip
                = some ⟨v.lastSeen, v.count + 1⟩ := by
              rw [hA]; simp
            have := (ih _ (allow_countBounded rl ip t hb) htail hge2).2 _ hnext
            simp only at this
            split_ifs <;> push_cast <;> omega
          · have hA := allow_of_full hv hwin (by omega)
            rw [hA]
            have := (ih rl hb htail hge2).2 v hv
            simp only [Bool.false_eq_true, and_false, if_false]
            push_cast
            omega
    · have hzero : admittedIn a (t :: ts) (rl.allowSeq ip (t :: ts)).1 = 0 :=
        admittedIn_after a ip (t :: ts) rl (fun x hx => by
          rcases List.mem_cons.1 hx with h | h
          · subst h; omega
          · have := hhead x h
            omega)
      rw [hzero]
      refine ⟨fun _ => by omega, fun v hv => ?_⟩
      have := hb ip v hv
      push_cast
      omega

/-- In any interval of one minute at most 199 calls of one client are
admitted, whatever the limiter holds at the start. -/
theorem admittedIn_le_199 (a : Int) (ip : String) :
    ∀ (ts : List Int) (rl : RateLimiter), rl.CountBounded → ts.Pairwise (· ≤ ·) →
      admittedIn a ts (rl.allowSeq ip ts).1 ≤ 199 := by
  intro ts
  induction ts with
  | nil => intro rl _ _; rw [admittedIn_nil]; omega
  | cons t ts ih =>
    intro rl hb hs
    obtain ⟨hhead, htail⟩ := List.pairwise_cons.1 hs
    by_cases hat : a ≤ t
    · have hge : ∀ x ∈ t :: ts, a ≤ x := by
        intro x hx
        rcases List.mem_cons.1 hx with h | h
        · subst h; exact hat
        · have := hhead x h
          omega
      obtain ⟨h1, h2⟩ := admittedIn_from_start a ip (t :: ts) rl hb hs hge
      cases hv : rl.visitors.lookup ip with
      | none =>
        have := h1 hv
        omega
      | some v =>
        have := h2 v hv
        have := hb ip v hv
        omega
    · rw [allowSeq_cons, admittedIn_cons, if_neg (by omega)]
      have := ih _ (allow_countBounded rl ip t hb) htail
      omega

/-- A call that finds no record, or a record older than a minute, comes
strictly later than every call before it. -/
theorem window_start_after_earlier_calls (ip : String) (before : List Int) (T : Int)
    (after : List Int) (hs : (before ++ T :: after).Pairwise (· ≤ ·))
    (hstart : (NewRateLimiter.allowSeq ip before).2.visitors.lookup ip = none ∨
      ∃ v, (NewRateLimiter.allowSeq ip before).2.visitors.lookup ip = some v ∧
        T - v.lastSeen > Minute) :
    ∀ t ∈ before, t < T := by
  rcases List.eq_nil_or_concat before with hnil | ⟨b, tl, hb⟩
  · subst hnil
    intro t ht
    exact absurd ht (List.not_mem_nil t)
  · rw [List.concat_eq_append] at hb
    subst hb
    obtain ⟨v, hv, hage⟩ := allow_leaves_fresh_record (NewRateLimiter.allowSeq ip b).2 ip tl
    rw [← allowSeq_concat_state] at hv
    have hlast : tl < T := by
      rcases hstart with hnone | ⟨w, hw, hexp⟩
      · rw [hnone] at hv
        exact absurd hv (by simp)
      · rw [hw] at hv
        have hwv : w = v := by simpa using hv
        subst hwv
        omega
    have hsb : (b ++ [tl]).Pairwise (· ≤ ·) := (List.pairwise_append.1 hs).1
    intro t ht
    rcases List.mem_append.1 ht with h | h
    · have := (List.pairwise_append.1 hsb).2.2 t h tl (List.mem_singleton_self tl)
      omega
    · have : t = tl := by simpa using h
      omega

/-- C10, as amended: for calls of one IP at non-decreasing times from the
empty limiter, at most 100 calls are admitted in every one-minute interval
that starts at the time `T` of a call which creates or resets the client's
record (the fixed windows the limiter keeps), and at most 199 in an arbitrary
interval of one minute. -/
theorem admits_per_fixed_window (ip : String) (ts : List Int)
    (hs : ts.Pairwise (· ≤ ·)) :
    (∀ (before : List Int) (T : Int) (after : List Int), ts = before ++ T :: after →
        ((NewRateLimiter.allowSeq ip before).2.visitors.lookup ip = none ∨
          ∃ v, (NewRateLimiter.allowSeq ip before).2.visitors.lookup ip = some v ∧
            T - v.lastSeen > Minute) →
        admittedIn T ts (NewRateLimiter.allowSeq ip ts).1 ≤ 100) ∧
      (∀ a : Int, admittedIn a ts (NewRateLimiter.allowSeq ip ts).1 ≤ 199) := by
  refine ⟨?_, fun a => admittedIn_le_199 a ip ts NewRateLimiter new_countBounded hs⟩
  intro before T after hts hstart
  subst hts
  have hbefore := window_start_after_earlier_calls ip before T after hs hstart
  rw [admittedIn_skip_before T ip (T :: after) before NewRateLimiter hbefore]
  have hafter : after.Pairwise (· ≤ ·) :=
    (List.pairwise_cons.1 (List.pairwise_append.1 hs).2.1).2
  have hfirst : (NewRateLimiter.allowSeq ip before).2.Allow ip T
      = (true, ⟨(NewRateLimiter.allowSeq ip before).2.visitors.insert ip
          { lastSeen := T, count := 1 }⟩) := by
    rcases hstart with hnone | ⟨v, hv, hexp⟩
    · exact allow_of_none T hnone
    · exact allow_of_expired hv hexp
  rw [allowSeq_cons, admittedIn_cons, hfirst]
  have := admittedIn_window T ip T (le_refl T) after
    ⟨(NewRateLimiter.allowSeq ip before).2.visitors.insert ip { lastSeen := T, count := 1 }⟩
    1 (by simp) (by omega) hafter
  simp only
  split_ifs <;> omega

set_option maxRecDepth 100000 in
theorem admits_per_fixed_window_witness :
    burst.Pairwise (· ≤ ·) ∧
      ((∀ (before : List Int) (T : Int) (after : List Int), burst = before ++ T :: after →
          ((NewRateLimiter.allowSeq "10.0.0.1" before).2.visitors.lookup "10.0.0.1" = none ∨
            ∃ v, (NewRateLimiter.allowSeq "10.0.0.1" before).2.visitors.lookup "10.0.0.1"
                = some v ∧ T - v.lastSeen > Minute) →
          admittedIn T burst (NewRateLimiter.allowSeq "10.0.0.1" burst).1 ≤ 100) ∧
        (∀ a : Int, admittedIn a burst (NewRateLimiter.allowSeq "10.0.0.1" burst).1 ≤ 199)) :=
  ⟨by decide, admits_per_fixed_window "10.0.0.1" burst (by decide)⟩

/-! ## Integer arithmetic -/

theorem wrap64_of_range {x : Int} (h1 : MinInt64 ≤ x) (h2 : x ≤ MaxInt64) : wrap64 x = x := by
  unfold MinInt64 at h1
  unfold MaxInt64 at h2
  unfold wrap64
  omega

/-- `MaxInt64 / b` for a positive divisor. -/
theorem div64_max_pos {b : Int} (hb : 0 < b) :
    div64 MaxInt64 b = MaxInt64 / b := by
  unfold div64
  have h0 : (0:Int) ≤ MaxInt64 := by unfold MaxInt64; omega
  rw [Int.tdiv_eq_ediv h0 (le_of_lt hb)]
  apply wrap64_of_range
  · have := Int.ediv_nonneg h0 (le_of_lt hb)
    unfold MinInt64; omega
  · exact Int.ediv_le_self b h0

theorem div64_max_neg {b : Int} (hb : b < 0) :
    div64 MaxInt64 b = -(MaxInt64 / (-b)) := by
  unfold div64
  have h0 : (0:Int) ≤ MaxInt64 := by unfold MaxInt64; omega
  have hnb : (0:Int) ≤ -b := by omega
  have e : Int.tdiv MaxInt64 b = -(MaxInt64 / (-b)) := by
    conv_lhs => rw [show b = -(-b) by omega]
    rw [Int.tdiv_neg, Int.tdiv_eq_ediv h0 hnb]
  rw [e]
  apply wrap64_of_range
  · have := Int.ediv_le_self (-b) h0
    unfold MinInt64; unfold MaxInt64 at this ⊢; omega
  · have := Int.ediv_nonneg h0 hnb
    unfold MaxInt64 at this ⊢; omega

theorem div64_min_pos {a : Int} (ha : 0 < a) :
    div64 MinInt64 a = -(9223372036854775808 / a) := by
  unfold div64
  have h0 : (0:Int) ≤ 9223372036854775808 := by omega
  have e : Int.tdiv MinInt64 a = -(9223372036854775808 / a) := by
    rw [show MinInt64 = -(9223372036854775808 : Int) by rfl, Int.neg_tdiv,
      Int.tdiv_eq_ediv h0 (le_of_lt ha)]
  rw [e]
  apply wrap64_of_range
  · have := Int.ediv_le_self a h0
    unfold MinInt64; omega
  · have := Int.ediv_nonneg h0 (le_of_lt ha)
    unfold MaxInt64; omega

/-- The guard of the branch for two positive factors is the exact test. -/
theorem gt_div64_max_iff {a b : Int} (hb : 0 < b) :
    a > div64 MaxInt64 b ↔ MaxInt64 < a * b := by
  rw [div64_max_pos hb]
  exact Int.ediv_lt_iff_lt_mul hb

theorem lt_div64_max_iff {a b : Int} (hb : b < 0) :
    a < div64 MaxInt64 b ↔ MaxInt64 < a * b := by
  rw [div64_max_neg hb]
  have hnb : (0:Int) < -b := by omega
  have := @Int.ediv_lt_iff_lt_mul MaxInt64 (-a) (-b) hnb
  rw [neg_mul_neg] at this
  constructor
  · intro h; exact this.1 (by omega)
  · intro h; have := this.2 h; omega

theorem lt_div64_min_iff {a b : Int} (ha : 0 < a) :
    b < div64 MinInt64 a ↔ a * b < MinInt64 := by
  rw [div64_min_pos ha]
  have := @Int.ediv_lt_iff_lt_mul 9223372036854775808 (-b) a ha
  have e : -b * a = -(a * b) := by ring
  rw [e] at this
  unfold MinInt64
  constructor
  · intro h; have := this.1 (by omega); omega
  · intro h; have := this.2 (by omega); omega

/-- The error of `MultiplyIntegers` as a function of the exact product. -/
theorem multiply_err_iff (a b : Int) :
    (MultiplyIntegers a b).2.isSome = true ↔ (a * b < MinInt64 ∨ MaxInt64 < a * b) := by
  unfold MultiplyIntegers
  by_cases hz : a = 0 ∨ b = 0
  · rw [if_pos hz]
    rcases hz with h | h <;> simp [h, MinInt64, MaxInt64]
  · rw [if_neg hz]
    push_neg at hz
    obtain ⟨ha0, hb0⟩ := hz
    rcases lt_or_gt_of_ne ha0 with ha | ha <;> rcases lt_or_gt_of_ne hb0 with hb | hb
    · -- a < 0, b < 0
      have hpos : 0 < a * b := mul_pos_of_neg_of_neg ha hb
      have hmin : ¬ a * b < MinInt64 := by unfold MinInt64; omega
      have k := @lt_div64_max_iff a b hb
      by_cases hov : MaxInt64 < a * b
      · have := k.2 hov
        simp [ha, hb, not_lt_of_gt ha, not_lt_of_gt hb, this, hov]
      · have : ¬ a < div64 MaxInt64 b := fun h => hov (k.1 h)
        simp [ha, hb, not_lt_of_gt ha, not_lt_of_gt hb, this, hov, hmin]
    · -- a < 0, b > 0
      have hneg : a * b < 0 := mul_neg_of_neg_of_pos ha hb
      have hmax : ¬ MaxInt64 < a * b := by unfold MaxInt64; omega
      have k := @lt_div64_min_iff b a hb
      rw [mul_comm] at k
      by_cases hun : a * b < MinInt64
      · have := k.2 hun
        simp [ha, hb, not_lt_of_gt ha, not_lt_of_gt hb, this, hun]
      · have : ¬ a < div64 MinInt64 b := fun h => hun (k.1 h)
        simp [ha, hb, not_lt_of_gt ha, not_lt_of_gt hb, this, hun, hmax]
    · -- a > 0, b < 0
      have hneg : a * b < 0 := mul_neg_of_pos_of_neg ha hb
      have hmax : ¬ MaxInt64 < a * b := by unfold MaxInt64; omega
      have k := @lt_div64_min_iff a b ha
      by_cases hun : a * b < MinInt64
      · have := k.2 hun
        simp [ha, hb, not_lt_of_gt ha, not_lt_of_gt hb, this, hun]
      · have : ¬ b < div64 MinInt64 a := fun h => hun (k.1 h)
        simp [ha, hb, not_lt_of_gt ha, not_lt_of_gt hb, this, hun, hmax]
    · -- a > 0, b > 0
      have hpos : 0 < a * b := mul_pos ha hb
      have hmin : ¬ a * b < MinInt64 := by unfold MinInt64; omega
      have k := @gt_div64_max_iff a b hb
      by_cases hov : MaxInt64 < a * b
      · have := k.2 hov
        simp [ha, hb, not_lt_of_gt ha, not_lt_of_gt hb, this, hov]
      · have : ¬ a > div64 MaxInt64 b := fun h => hov (k.1 h)
        simp [ha, hb, not_lt_of_gt ha, not_lt_of_gt hb, this, hov, hmin]

theorem multiply_value (a b : Int) :
    ((MultiplyIntegers a b).2 = none → (MultiplyIntegers a b).1 = a * b) ∧
      ((MultiplyIntegers a b).2.isSome = true → (MultiplyIntegers a b).1 = 0) := by
  have herr := multiply_err_iff a b
  constructor
  · intro hnone
    have hin : ¬ (a * b < MinInt64 ∨ MaxInt64 < a * b) := by
      intro h
      have := herr.2 h
      rw [hnone] at this
      simp at this
    push_neg at hin
    unfold MultiplyIntegers at hnone ⊢
    split_ifs at hnone ⊢ with h1
    · rcases h1 with h | h <;> simp [h]
    · exact wrap64_of_range hin.1 hin.2
  · intro hsome
    unfold MultiplyIntegers at hsome ⊢
    split_ifs at hsome ⊢ <;> simp_all

theorem factorial_small (n : Nat) (h : n ≤ 20) :
    Factorial (n : Int) = ((n.factorial : Int), none) := by
  interval_cases n <;> decide

theorem factorial_err_iff (n : Int) :
    (Factorial n).2.isSome = true ↔ (n < 0 ∨ MaxInt64 < (n.toNat.factorial : Int)) := by
  unfold Factorial
  by_cases hneg : n < 0
  · simp [hneg]
  · rw [if_neg hneg]
    obtain ⟨m, rfl⟩ := Int.eq_ofNat_of_zero_le (not_lt.1 hneg)
    simp only [Int.toNat_ofNat, hneg, false_or]
    by_cases h01 : (m : Int) = 0 ∨ (m : Int) = 1
    · rw [if_pos h01]
      have hm : m = 0 ∨ m = 1 := by omega
      rcases hm with h | h <;> subst h <;> simp [MaxInt64]
    · rw [if_neg h01]
      by_cases hbig : (m : Int) > 20
      · rw [if_pos hbig]
        have h21 : 21 ≤ m := by omega
        have hle : Nat.factorial 21 ≤ m.factorial := Nat.factorial_le h21
        have h21v : Nat.factorial 21 = 51090942171709440000 := by decide
        have : MaxInt64 < (m.factorial : Int) := by
          unfold MaxInt64
          omega
        simp [this]
      · rw [if_neg hbig]
        have h20 : m ≤ 20 := by omega
        have hle : m.factorial ≤ Nat.factorial 20 := Nat.factorial_le h20
        have h20v : Nat.factorial 20 = 2432902008176640000 := by decide
        have : ¬ MaxInt64 < (m.factorial : Int) := by
          unfold MaxInt64
          omega
        simp [this]

theorem factorial_err_value (n : Int) (h : (Factorial n).2.isSome = true) :
    (Factorial n).1 = 0 := by
  unfold Factorial at h ⊢
  split_ifs at h ⊢ <;> simp_all

/-- The remainder of the truncated division takes the sign of the dividend. -/
theorem tmod_neg_natCast (m : Nat) (b : Int) :
    Int.tmod (-(m : Int)) b = -(Int.tmod (m : Int) b) := by
  cases m with
  | zero => simp
  | succ k => cases b <;> rfl

/-- The remainder of the truncated division is smaller than the divisor in
absolute value. -/
theorem tmod_abs_lt (a b : Int) (hb : b ≠ 0) : |Int.tmod a b| < |b| := by
  obtain ⟨m, rfl | rfl⟩ := Int.eq_nat_or_neg a <;>
    obtain ⟨n, rfl | rfl⟩ := Int.eq_nat_or_neg b
  all_goals
    have hn : n ≠ 0 := by
      intro h
      subst h
      simp at hb
    have hlt : m % n < n := Nat.mod_lt _ (Nat.pos_of_ne_zero hn)
    simp only [Int.tmod_neg, tmod_neg_natCast, ← Int.ofNat_tmod, abs_neg, Nat.abs_cast]
    exact_mod_cast hlt

/-- The remainder never wraps. -/
theorem mod64_eq_tmod (a b : Int) (hb0 : b ≠ 0) (hb1 : MinInt64 ≤ b) (hb2 : b ≤ MaxInt64) :
    mod64 a b = Int.tmod a b := by
  have h := tmod_abs_lt a b hb0
  have hb : |b| ≤ 9223372036854775808 := by
    unfold MinInt64 at hb1
    unfold MaxInt64 at hb2
    exact abs_le.2 ⟨by omega, by omega⟩
  have hr := abs_lt.1 (lt_of_lt_of_le h hb)
  unfold mod64
  apply wrap64_of_range
  · unfold MinInt64; omega
  · unfold MaxInt64; omega

/-- The quotient wraps only for `MinInt64 / -1`. -/
theorem div64_eq_tdiv (a b : Int) (ha1 : MinInt64 ≤ a) (ha2 : a ≤ MaxInt64)
    (hb0 : b ≠ 0) (hne : ¬ (a = MinInt64 ∧ b = -1)) :
    div64 a b = Int.tdiv a b := by
  unfold MinInt64 at ha1 hne
  unfold MaxInt64 at ha2
  unfold div64
  have hq : (Int.tdiv a b).natAbs = a.natAbs / b.natAbs := Int.natAbs_tdiv a b
  have hbpos : 0 < b.natAbs := Int.natAbs_pos.2 hb0
  apply wrap64_of_range
  · unfold MinInt64
    by_cases h1 : b = -1
    · subst h1
      have : a ≠ -9223372036854775808 := fun h => hne ⟨h, rfl⟩
      have e : Int.tdiv a (-1) = -a := by
        rw [Int.tdiv_neg, Int.tdiv_one]
      rw [e]; omega
    · have hle : a.natAbs / b.natAbs ≤ a.natAbs := Nat.div_le_self _ _
      omega
  · unfold MaxInt64
    by_cases h1 : b = -1
    · subst h1
      have : a ≠ -9223372036854775808 := fun h => hne ⟨h, rfl⟩
      have e : Int.tdiv a (-1) = -a := by
        rw [Int.tdiv_neg, Int.tdiv_one]
      rw [e]; omega
    · by_cases h2 : b = 1
      · subst h2
        rw [Int.tdiv_one]; exact ha2
      · have hb2 : 2 ≤ b.natAbs := by omega
        have hle : a.natAbs / b.natAbs ≤ a.natAbs / 2 :=
          Nat.div_le_div_left hb2 (by omega)
        omega

theorem divide_spec (a b : Int) (ha1 : MinInt64 ≤ a) (ha2 : a ≤ MaxInt64)
    (hb1 : MinInt64 ≤ b) (hb2 : b ≤ MaxInt64) :
    ((DivideIntegers a b).2.2.isSome = true ↔ b = 0) ∧
      (b = 0 → (DivideIntegers a b).1 = 0 ∧ (DivideIntegers a b).2.1 = 0) ∧
      (b ≠ 0 → |(DivideIntegers a b).2.1| < |b|) ∧
      (b ≠ 0 → ¬ (a = MinInt64 ∧ b = -1) →
        a = (DivideIntegers a b).1 * b + (DivideIntegers a b).2.1) := by
  by_cases hb : b = 0
  · simp [DivideIntegers, hb]
  · have hD : DivideIntegers a b = (div64 a b, Int.tmod a b, none) := by
      unfold DivideIntegers
      rw [if_neg hb, mod64_eq_tmod a b hb hb1 hb2]
    rw [hD]
    refine ⟨by simp [hb], fun h => absurd h hb, fun _ => tmod_abs_lt a b hb, ?_⟩
    intro _ hne
    simp only
    rw [div64_eq_tdiv a b ha1 ha2 hb hne]
    exact (Int.tdiv_add_tmod' a b).symm

/-- C12: for `int64` values `a` and `b`, `MultiplyIntegers` returns an error
exactly when the exact product `a * b` lies outside the `int64` range. -/
theorem multiply_error_iff_overflow (a b : Int) (_ha : InInt64 a) (_hb : InInt64 b) :
    (MultiplyIntegers a b).2.isSome = true ↔ ¬ InInt64 (a * b) := by
  rw [multiply_err_iff]
  unfold InInt64
  constructor
  · rintro (h | h) ⟨h1, h2⟩ <;> omega
  · intro h
    by_cases h1 : a * b < MinInt64
    · exact Or.inl h1
    · right
      by_contra h2
      exact h ⟨by omega, by omega⟩

theorem multiply_error_iff_overflow_witness :
    InInt64 MinInt64 ∧ InInt64 (-1) ∧
      ((MultiplyIntegers MinInt64 (-1)).2.isSome = true ↔ ¬ InInt64 (MinInt64 * (-1))) :=
  ⟨by decide, by decide, multiply_error_iff_overflow MinInt64 (-1) (by decide) (by decide)⟩

/-- C13: for `int64` values `a` and `b`, when `MultiplyIntegers` returns no
error its result is the exact product `a * b`, and when it returns an error
its numeric result is 0. -/
theorem multiply_result_exact (a b : Int) (_ha : InInt64 a) (_hb : InInt64 b) :
    ((MultiplyIntegers a b).2 = none → (MultiplyIntegers a b).1 = a * b) ∧
      ((MultiplyIntegers a b).2.isSome = true → (MultiplyIntegers a b).1 = 0) :=
  multiply_value a b

theorem multiply_result_exact_witness :
    InInt64 3037000499 ∧ InInt64 (-3037000499) ∧
      (((MultiplyIntegers 3037000499 (-3037000499)).2 = none →
          (MultiplyIntegers 3037000499 (-3037000499)).1 = 3037000499 * (-3037000499)) ∧
        ((MultiplyIntegers 3037000499 (-3037000499)).2.isSome = true →
          (MultiplyIntegers 3037000499 (-3037000499)).1 = 0)) :=
  ⟨by decide, by decide,
    multiply_result_exact 3037000499 (-3037000499) (by decide) (by decide)⟩

/-- C14: for `0 ≤ n ≤ 20`, `Factorial n` returns no error and its result is
the exact factorial `n!`; in particular `Factorial 20 = 2432902008176640000`. -/
theorem factorial_exact (n : Int) (h0 : 0 ≤ n) (h20 : n ≤ 20) :
    Factorial n = ((n.toNat.factorial : Int), none) ∧
      Factorial 20 = (2432902008176640000, none) := by
  obtain ⟨m, rfl⟩ := Int.eq_ofNat_of_zero_le h0
  have hm : m ≤ 20 := by omega
  exact ⟨factorial_small m hm, by decide⟩

theorem factorial_exact_witness :
    (0 : Int) ≤ 13 ∧ (13 : Int) ≤ 20 ∧
      (Factorial 13 = (((13 : Int).toNat.factorial : Int), none) ∧
        Factorial 20 = (2432902008176640000, none)) :=
  ⟨by decide, by decide, factorial_exact 13 (by decide) (by decide)⟩

/-- C15: `Factorial n` returns an error exactly when `n < 0` or the exact
value `n!` exceeds `MaxInt64`, and on error its numeric result is 0. -/
theorem factorial_error_iff (n : Int) :
    ((Factorial n).2.isSome = true ↔ (n < 0 ∨ MaxInt64 < (n.toNat.factorial : Int))) ∧
      ((Factorial n).2 = none ∨ (Factorial n).1 = 0) := by
  refine ⟨factorial_err_iff n, ?_⟩
  cases h : (Factorial n).2 with
  | none => exact Or.inl rfl
  | some e => exact Or.inr (factorial_err_value n (by rw [h]; rfl))

/-- C16, as amended: for `int64` values, `DivideIntegers` returns an error
exactly when `b = 0`, then with quotient 0 and remainder 0; for `b ≠ 0` the
remainder has `|remainder| < |b|`; and `a = quotient * b + remainder` holds
for every `b ≠ 0` except at `a = MinInt64`, `b = -1`, where the quotient
wraps to `MinInt64` with remainder 0. -/
theorem divide_quotient_remainder (a b : Int) (ha : InInt64 a) (hb : InInt64 b) :
    ((DivideIntegers a b).2.2.isSome = true ↔ b = 0) ∧
      (b = 0 → (DivideIntegers a b).1 = 0 ∧ (DivideIntegers a b).2.1 = 0) ∧
      (b ≠ 0 → |(DivideIntegers a b).2.1| < |b|) ∧
      (b ≠ 0 → ¬ (a = MinInt64 ∧ b = -1) →
        a = (DivideIntegers a b).1 * b + (DivideIntegers a b).2.1) ∧
      DivideIntegers MinInt64 (-1) = (MinInt64, 0, none) :=
  have h := divide_spec a b ha.1 ha.2 hb.1 hb.2
  ⟨h.1, h.2.1, h.2.2.1, h.2.2.2, by decide⟩

theorem divide_quotient_remainder_witness :
    InInt64 (-7) ∧ InInt64 2 ∧
      (((DivideIntegers (-7) 2).2.2.isSome = true ↔ (2 : Int) = 0) ∧
        ((2 : Int) = 0 → (DivideIntegers (-7) 2).1 = 0 ∧ (DivideIntegers (-7) 2).2.1 = 0) ∧
        ((2 : Int) ≠ 0 → |(DivideIntegers (-7) 2).2.1| < |(2 : Int)|) ∧
        ((2 : Int) ≠ 0 → ¬ ((-7 : Int) = MinInt64 ∧ (2 : Int) = -1) →
          (-7 : Int) = (DivideIntegers (-7) 2).1 * 2 + (DivideIntegers (-7) 2).2.1) ∧
        DivideIntegers MinInt64 (-1) = (MinInt64, 0, none)) :=
  ⟨by decide, by decide, divide_quotient_remainder (-7) 2 (by decide) (by decide)⟩

/-- The claim C16 as first stated fails at `a = MinInt64`, `b = -1`: both are
`int64` values, `b ≠ 0`, there is no error, and
`quotient * b + remainder` is `2^63`, not `a`. -/
theorem divide_min_by_neg_one :
    InInt64 MinInt64 ∧ InInt64 (-1) ∧ (-1 : Int) ≠ 0 ∧
      (DivideIntegers MinInt64 (-1)).2.2 = none ∧
      (DivideIntegers MinInt64 (-1)).1 * (-1) + (DivideIntegers MinInt64 (-1)).2.1
        = 9223372036854775808 ∧
      MinInt64 ≠
        (DivideIntegers MinInt64 (-1)).1 * (-1) + (DivideIntegers MinInt64 (-1)).2.1 := by
  decide

/-! ## Request helpers -/

/-- No byte written for an escaped byte is `<`, `>`, a double quote or a
single quote. -/
theorem escapeByte_safe (c x : UInt8) (hx : x ∈ escapeByte c) :
    x ≠ 60 ∧ x ≠ 62 ∧ x ≠ 34 ∧ x ≠ 39 := by
  unfold escapeByte at hx
  split_ifs at hx with h1 h2 h3 h4 h5
  · revert x; decide
  · revert x; decide
  · revert x; decide
  · revert x; decide
  · revert x; decide
  · have hxc : x = c := by simpa using hx
    subst hxc
    exact ⟨h3, h4, h5, h2⟩

theorem EscapeString_safe (s : List UInt8) (x : UInt8) (hx : x ∈ EscapeString s) :
    x ≠ 60 ∧ x ≠ 62 ∧ x ≠ 34 ∧ x ≠ 39 := by
  unfold EscapeString at hx
  obtain ⟨c, _, hc⟩ := List.mem_flatMap.1 hx
  exact escapeByte_safe c x hc

theorem sanitizeInput_safe (TrimSpace : List UInt8 → List UInt8) (input : List UInt8)
    (x : UInt8) (hx : x ∈ sanitizeInput TrimSpace input) :
    x ≠ 60 ∧ x ≠ 62 ∧ x ≠ 34 ∧ x ≠ 39 := by
  unfold sanitizeInput at hx
  simp only at hx
  split_ifs at hx
  · exact EscapeString_safe _ x (List.mem_of_mem_take hx)
  · exact EscapeString_safe _ x hx

/-- The first piece of `Split` is the part of the string before the first
separator; so `Split` always has a piece with index 0. -/
theorem Split_head (sep : UInt8) (s : List UInt8) :
    (Split s sep)[0]? = some (s.takeWhile (fun c => c ≠ sep)) := by
  induction s with
  | nil => simp [Split]
  | cons c cs ih =>
    unfold Split
    by_cases h : c = sep
    · simp [h]
    · rw [if_neg h]
      cases hs : Split cs sep with
      | nil => rw [hs] at ih; simp at ih
      | cons w ws =>
        rw [hs] at ih
        simp at ih
        simp [h, ih]

/-- C17: the output of `sanitizeInput` contains none of `<`, `>`, the double
quote and the single quote, for every input and whatever `TrimSpace`
returns; and the input of the test is escaped as the test expects. -/
theorem sanitizeInput_no_metachar (TrimSpace : List UInt8 → List UInt8) (input : List UInt8) :
    (60 ∉ sanitizeInput TrimSpace input ∧ 62 ∉ sanitizeInput TrimSpace input ∧
        34 ∉ sanitizeInput TrimSpace input ∧ 39 ∉ sanitizeInput TrimSpace input) ∧
      sanitizeInput trimSpaceASCII (bytes "<script>alert('xss')</script>")
        = bytes "&lt;script&gt;alert(&#39;xss&#39;)&lt;/script&gt;" := by
  refine ⟨⟨?_, ?_, ?_, ?_⟩, by decide⟩
  · exact fun h => (sanitizeInput_safe TrimSpace input _ h).1 rfl
  · exact fun h => (sanitizeInput_safe TrimSpace input _ h).2.1 rfl
  · exact fun h => (sanitizeInput_safe TrimSpace input _ h).2.2.1 rfl
  · exact fun h => (sanitizeInput_safe TrimSpace input _ h).2.2.2 rfl

/-- C18: `validateFormInput` returns an error exactly when the trimmed name
is empty, or the trimmed address is empty, or `len(name) > 100`, or
`len(address) > 200`; and the error reported is that of the first of these
conditions that holds, in this order (a missing name before a missing
address). -/
theorem validateFormInput_error_iff (TrimSpace : List UInt8 → List UInt8)
    (name address : List UInt8) :
    ((validateFormInput TrimSpace name address).isSome = true ↔
        ((TrimSpace name).length = 0 ∨ (TrimSpace address).length = 0 ∨
          name.length > 100 ∨ address.length > 200)) ∧
      ((TrimSpace name).length = 0 →
        validateFormInput TrimSpace name address = some "name is required") ∧
      ((TrimSpace name).length ≠ 0 → (TrimSpace address).length = 0 →
        validateFormInput TrimSpace name address = some "address is required") ∧
      ((TrimSpace name).length ≠ 0 → (TrimSpace address).length ≠ 0 → name.length > 100 →
        validateFormInput TrimSpace name address
          = some "name must be less than 100 characters") ∧
      ((TrimSpace name).length ≠ 0 → (TrimSpace address).length ≠ 0 → ¬ name.length > 100 →
        address.length > 200 →
        validateFormInput TrimSpace name address
          = some "address must be less than 200 characters") := by
  unfold validateFormInput
  refine ⟨?_, ?_, ?_, ?_, ?_⟩
  · split_ifs <;> simp_all
  · intro h1; rw [if_pos h1]
  · intro h1 h2; rw [if_neg h1, if_pos h2]
  · intro h1 h2 h3; rw [if_neg h1, if_neg h2, if_pos h3]
  · intro h1 h2 h3 h4; rw [if_neg h1, if_neg h2, if_neg h3, if_pos h4]

theorem validateFormInput_error_iff_witness :
    validateFormInput trimSpaceASCII (bytes " \t ") (bytes "")
        = some "name is required" ∧
      validateFormInput trimSpaceASCII (bytes "John") (bytes "  ")
        = some "address is required" :=
  ⟨(validateFormInput_error_iff trimSpaceASCII (bytes " \t ") (bytes "")).2.1 (by decide),
    (validateFormInput_error_iff trimSpaceASCII (bytes "John") (bytes "  ")).2.2.1
      (by decide) (by decide)⟩

/-- C20: header precedence of `getClientIP`: a non-empty `X-Forwarded-For`
gives its part before the first comma, trimmed, whatever the other two values
are; otherwise a non-empty `X-Real-IP` gives that value unchanged; only
otherwise `RemoteAddr` is used (its part before the first colon). No index
`[0]` is out of range: there is always a result. -/
theorem getClientIP_precedence (TrimSpace : List UInt8 → List UInt8)
    (xff xri remoteAddr : List UInt8) :
    getClientIP TrimSpace xff xri remoteAddr =
        (if xff ≠ [] then some (TrimSpace (xff.takeWhile (fun c => c ≠ 44)))
         else if xri ≠ [] then some xri
         else some (remoteAddr.takeWhile (fun c => c ≠ 58))) ∧
      (getClientIP TrimSpace xff xri remoteAddr).isSome = true := by
  have key : getClientIP TrimSpace xff xri remoteAddr =
      (if xff ≠ [] then some (TrimSpace (xff.takeWhile (fun c => c ≠ 44)))
       else if xri ≠ [] then some xri
       else some (remoteAddr.takeWhile (fun c => c ≠ 58))) := by
    unfold getClientIP
    simp only [Split_head, Option.map_some']
  refine ⟨key, ?_⟩
  rw [key]
  split_ifs <;> rfl

set_option maxRecDepth 100000 in
/-- C19: evaluation of `validateFormInput` at the lengths its messages name:
a name of exactly 100 bytes and an address of exactly 200 bytes are accepted,
although the messages say `less than 100` and `less than 200` characters. -/
theorem validateFormInput_accepts_limit_lengths :
    (List.replicate 100 (97 : UInt8)).length = 100 ∧
      (List.replicate 200 (98 : UInt8)).length = 200 ∧
      validateFormInput trimSpaceASCII (List.replicate 100 97) (List.replicate 200 98) = none ∧
      validateFormInput trimSpaceASCII (List.replicate 101 97) (List.replicate 200 98)
        = some "name must be less than 100 characters" ∧
      validateFormInput trimSpaceASCII (List.replicate 100 97) (List.replicate 201 98)
        = some "address must be less than 200 characters" := by
  decide

/-! ## Binary search -/

/-- The midpoint lies between `left` and `right`. -/
theorem mid_bounds {left right : Int} (h : left ≤ right) :
    left ≤ left + Int.tdiv (right - left) 2 ∧ left + Int.tdiv (right - left) 2 ≤ right := by
  rw [Int.tdiv_eq_ediv (by omega) (by omega)]
  omega

/-- Reading `arr[i]` inside the bounds. -/
theorem index_of_bounds (arr : List Int) {i : Int} (h0 : 0 ≤ i) (h1 : i < arr.length) :
    ∃ v, index arr i = some v ∧ arr[i.toNat]? = some v := by
  have hlt : i.toNat < arr.length := by omega
  refine ⟨arr[i.toNat], ?_, ?_⟩
  · simp [index, h0, List.getElem?_eq_getElem hlt]
  · exact List.getElem?_eq_getElem hlt

/-- In a sorted slice the elements grow with the index. -/
theorem sorted_index_le {arr : List Int} (hs : arr.Pairwise (· ≤ ·)) {i j : Nat} {a b : Int}
    (hij : i ≤ j) (ha : arr[i]? = some a) (hb : arr[j]? = some b) : a ≤ b := by
  rcases Nat.eq_or_lt_of_le hij with h | h
  · subst h
    rw [ha] at hb
    cases hb
    exact le_refl _
  · obtain ⟨hi, rfl⟩ := List.getElem?_eq_some.1 ha
    obtain ⟨hj, rfl⟩ := List.getElem?_eq_some.1 hb
    exact List.pairwise_iff_getElem.1 hs i j hi hj h

/-- The loop of `BinarySearch` on a sorted slice: it ends, with an index of
`target` or with -1 when `target` does not occur, provided every occurrence
of `target` lies between `left` and `right`. -/
theorem binarySearchLoop_spec (arr : List Int) (target : Int) (hs : arr.Pairwise (· ≤ ·)) :
    ∀ (fuel : Nat) (left right : Int), 0 ≤ left → right < arr.length →
      0 < fuel → right - left + 1 < fuel →
      (∀ k : Nat, arr[k]? = some target → left ≤ k ∧ (k : Int) ≤ right) →
      ∃ r, binarySearchLoop arr target fuel left right = some r ∧
        ((r = -1 ∧ ∀ k : Nat, arr[k]? ≠ some target) ∨
          (0 ≤ r ∧ r < arr.length ∧ arr[r.toNat]? = some target)) := by
  intro fuel
  induction fuel with
  | zero => intro _ _ _ _ h; omega
  | succ fuel ih =>
    intro left right hl hr _ hf hocc
    unfold binarySearchLoop
    by_cases hlr : left ≤ right
    · rw [if_pos hlr]
      obtain ⟨hm1, hm2⟩ := mid_bounds hlr
      generalize left + Int.tdiv (right - left) 2 = mid at hm1 hm2
      obtain ⟨v, hv, hv2⟩ := index_of_bounds arr (i := mid) (by omega) (by omega)
      simp only [hv]
      by_cases hvt : v = target
      · rw [if_pos hvt]
        subst hvt
        exact ⟨mid, rfl, Or.inr ⟨by omega, by omega, hv2⟩⟩
      · rw [if_neg hvt]
        by_cases hlt : v < target
        · rw [if_pos hlt]
          apply ih (mid + 1) right (by omega) hr (by omega) (by omega)
          intro k hk
          obtain ⟨h1, h2⟩ := hocc k hk
          refine ⟨?_, h2⟩
          by_contra hcon
          have hkm : k ≤ mid.toNat := by omega
          have := sorted_index_le hs hkm hk hv2
          omega
        · rw [if_neg hlt]
          apply ih left (mid - 1) hl (by omega) (by omega) (by omega)
          intro k hk
          obtain ⟨h1, h2⟩ := hocc k hk
          refine ⟨h1, ?_⟩
          by_contra hcon
          have hkm : mid.toNat ≤ k := by omega
          have := sorted_index_le hs hkm hv2 hk
          omega
    · rw [if_neg hlr]
      refine ⟨-1, rfl, Or.inl ⟨rfl, ?_⟩⟩
      intro k hk
      have := hocc k hk
      omega

/-- The loop of `BinarySearchFirst` on a sorted slice. -/
theorem binarySearchFirstLoop_spec (arr : List Int) (target : Int)
    (hs : arr.Pairwise (· ≤ ·)) :
    ∀ (fuel : Nat) (left right result : Int), 0 ≤ left → right < arr.length →
      0 < fuel → right - left + 1 < fuel →
      (∀ (k : Nat) (v : Int), (k : Int) < left → arr[k]? = some v → v < target) →
      ((result = -1 ∧ ∀ k : Nat, right < (k : Int) → arr[k]? ≠ some target) ∨
        (0 ≤ result ∧ result < arr.length ∧ arr[result.toNat]? = some target ∧
          ∀ k : Nat, right < (k : Int) → arr[k]? = some target → result ≤ k)) →
      ∃ r, binarySearchFirstLoop arr target fuel left right result = some r ∧
        ((r = -1 ∧ ∀ k : Nat, arr[k]? ≠ some target) ∨
          (0 ≤ r ∧ r < arr.length ∧ arr[r.toNat]? = some target ∧
            ∀ k : Nat, arr[k]? = some target → r ≤ k)) := by
  intro fuel
  induction fuel with
  | zero => intro _ _ _ _ _ h; omega
  | succ fuel ih =>
    intro left right result hl hr _ hf hlow hres
    unfold binarySearchFirstLoop
    by_cases hlr : left ≤ right
    · rw [if_pos hlr]
      obtain ⟨hm1, hm2⟩ := mid_bounds hlr
      generalize left + Int.tdiv (right - left) 2 = mid at hm1 hm2
      obtain ⟨v, hv, hv2⟩ := index_of_bounds arr (i := mid) (by omega) (by omega)
      simp only [hv]
      by_cases hvt : v = target
      · rw [if_pos hvt]
        subst hvt
        apply ih left (mid - 1) mid hl (by omega) (by omega) (by omega) hlow
        right
        refine ⟨by omega, by omega, hv2, ?_⟩
        intro k hk _
        omega
      · rw [if_neg hvt]
        by_cases hlt : v < target
        · rw [if_pos hlt]
          apply ih (mid + 1) right result (by omega) hr (by omega) (by omega) ?_ hres
          intro k w hk hw
          have hkm : k ≤ mid.toNat := by omega
          have := sorted_index_le hs hkm hw hv2
          omega
        · rw [if_neg hlt]
          have hnone : ∀ k : Nat, mid - 1 < (k : Int) → arr[k]? ≠ some target := by
            intro k hk hkt
            have hkm : mid.toNat ≤ k := by omega
            have := sorted_index_le hs hkm hv2 hkt
            omega
          apply ih left (mid - 1) result hl (by omega) (by omega) (by omega) hlow
          rcases hres with ⟨h1, _⟩ | ⟨h1, h2, h3, _⟩
          · exact Or.inl ⟨h1, hnone⟩
          · exact Or.inr ⟨h1, h2, h3, fun k hk hkt => absurd hkt (hnone k hk)⟩
    · rw [if_neg hlr]
      refine ⟨result, rfl, ?_⟩
      have hall : ∀ k : Nat, arr[k]? = some target → right < (k : Int) := by
        intro k hk
        by_contra hcon
        have := hlow k target (by omega) hk
        omega
      rcases hres with ⟨h1, h2⟩ | ⟨h1, h2, h3, h4⟩
      · exact Or.inl ⟨h1, fun k hk => h2 k (hall k hk) hk⟩
      · exact Or.inr ⟨h1, h2, h3, fun k hk => h4 k (hall k hk) hk⟩

/-- The loop of `BinarySearchLast` on a sorted slice. -/
theorem binarySearchLastLoop_spec (arr : List Int) (target : Int)
    (hs : arr.Pairwise (· ≤ ·)) :
    ∀ (fuel : Nat) (left right result : Int), 0 ≤ left → right < arr.length →
      0 < fuel → right - left + 1 < fuel →
      (∀ (k : Nat) (v : Int), right < (k : Int) → arr[k]? = some v → target < v) →
      ((result = -1 ∧ ∀ k : Nat, (k : Int) < left → arr[k]? ≠ some target) ∨
        (0 ≤ result ∧ result < arr.length ∧ arr[result.toNat]? = some target ∧
          ∀ k : Nat, (k : Int) < left → arr[k]? = some target → (k : Int) ≤ result)) →
      ∃ r, binarySearchLastLoop arr target fuel left right result = some r ∧
        ((r = -1 ∧ ∀ k : Nat, arr[k]? ≠ some target) ∨
          (0 ≤ r ∧ r < arr.length ∧ arr[r.toNat]? = some target ∧
            ∀ k : Nat, arr[k]? = some target → (k : Int) ≤ r)) := by
  intro fuel
  induction fuel with
  | zero => intro _ _ _ _ _ h; omega
  | succ fuel ih =>
    intro left right result hl hr _ hf hhigh hres
    unfold binarySearchLastLoop
    by_cases hlr : left ≤ right
    · rw [if_pos hlr]
      obtain ⟨hm1, hm2⟩ := mid_bounds hlr
      generalize left + Int.tdiv (right - left) 2 = mid at hm1 hm2
      obtain ⟨v, hv, hv2⟩ := index_of_bounds arr (i := mid) (by omega) (by omega)
      simp only [hv]
      have hnone : v < target → ∀ k : Nat, (k : Int) < mid + 1 → arr[k]? ≠ some target := by
        intro hlt k hk hkt
        have hkm : k ≤ mid.toNat := by omega
        have := sorted_index_le hs hkm hkt hv2
        omega
      by_cases hvt : v = target
      · rw [if_pos hvt]
        subst hvt
        apply ih (mid + 1) right mid (by omega) hr (by omega) (by omega) hhigh
        right
        refine ⟨by omega, by omega, hv2, ?_⟩
        intro k hk _
        omega
      · rw [if_neg hvt]
        by_cases hlt : v < target
        · rw [if_pos hlt]
          apply ih (mid + 1) right result (by omega) hr (by omega) (by omega) hhigh
          rcases hres with ⟨h1, _⟩ | ⟨h1, h2, h3, _⟩
          · exact Or.inl ⟨h1, hnone hlt⟩
          · exact Or.inr ⟨h1, h2, h3, fun k hk hkt => absurd hkt (hnone hlt k hk)⟩
        · rw [if_neg hlt]
          apply ih left (mid - 1) result hl (by omega) (by omega) (by omega) ?_ hres
          intro k w hk hw
          have hkm : mid.toNat ≤ k := by omega
          have := sorted_index_le hs hkm hv2 hw
          omega
    · rw [if_neg hlr]
      refine ⟨result, rfl, ?_⟩
      have hall : ∀ k : Nat, arr[k]? = some target → (k : Int) < left := by
        intro k hk
        by_contra hcon
        have := hhigh k target (by omega) hk
        omega
      rcases hres with ⟨h1, h2⟩ | ⟨h1, h2, h3, h4⟩
      · exact Or.inl ⟨h1, fun k hk => h2 k (hall k hk) hk⟩
      · exact Or.inr ⟨h1, h2, h3, fun k hk => h4 k (hall k hk) hk⟩

/-- An element of a slice sits at some index. -/
theorem exists_index_of_mem {arr : List Int} {x : Int} (h : x ∈ arr) :
    ∃ k : Nat, arr[k]? = some x := by
  obtain ⟨k, hk, hx⟩ := List.mem_iff_getElem.1 h
  exact ⟨k, by rw [List.getElem?_eq_getElem hk, hx]⟩

theorem mem_of_index {arr : List Int} {x : Int} {k : Nat} (h : arr[k]? = some x) : x ∈ arr := by
  obtain ⟨hk, hx⟩ := List.getElem?_eq_some.1 h
  exact hx ▸ List.getElem_mem hk

/-- C21: on a slice sorted in non-decreasing order, `BinarySearch` returns an
index `i` with `0 ≤ i < len(arr)` and `arr[i] = target` when `target` occurs
in `arr`, and -1 when it does not. -/
theorem binarySearch_correct (arr : List Int) (target : Int) (hs : arr.Pairwise (· ≤ ·)) :
    (target ∈ arr → ∃ i : Nat, BinarySearch arr target = some (i : Int) ∧
        i < arr.length ∧ arr[i]? = some target) ∧
      (target ∉ arr → BinarySearch arr target = some (-1)) := by
  have hloop := binarySearchLoop_spec arr target hs (arr.length + 1) 0 (arr.length - 1)
    (le_refl _) (by omega) (by omega) (by push_cast; omega)
    (fun k hk => by
      have := (List.getElem?_eq_some.1 hk).1
      omega)
  obtain ⟨r, hr, hcase⟩ := hloop
  unfold BinarySearch
  rw [hr]
  constructor
  · intro hmem
    obtain ⟨k, hk⟩ := exists_index_of_mem hmem
    rcases hcase with ⟨_, hno⟩ | ⟨h0, h1, h2⟩
    · exact absurd hk (hno k)
    · exact ⟨r.toNat, by rw [Int.toNat_of_nonneg h0], by omega, h2⟩
  · intro hnot
    rcases hcase with ⟨h, _⟩ | ⟨_, _, h2⟩
    · rw [h]
    · exact absurd (mem_of_index h2) hnot

theorem binarySearch_correct_witness :
    ([1, 3, 3, 5, 8] : List Int).Pairwise (· ≤ ·) ∧
      ((5 ∈ ([1, 3, 3, 5, 8] : List Int) →
          ∃ i : Nat, BinarySearch [1, 3, 3, 5, 8] 5 = some (i : Int) ∧
            i < ([1, 3, 3, 5, 8] : List Int).length ∧
            ([1, 3, 3, 5, 8] : List Int)[i]? = some 5) ∧
        (5 ∉ ([1, 3, 3, 5, 8] : List Int) → BinarySearch [1, 3, 3, 5, 8] 5 = some (-1))) :=
  ⟨by decide, binarySearch_correct [1, 3, 3, 5, 8] 5 (by decide)⟩

/-- C22: on a slice sorted in non-decreasing order, `BinarySearchFirst`
returns the smallest index holding `target` when `target` occurs in `arr`,
and -1 when it does not. -/
theorem binarySearchFirst_correct (arr : List Int) (target : Int)
    (hs : arr.Pairwise (· ≤ ·)) :
    (target ∈ arr → ∃ i : Nat, BinarySearchFirst arr target = some (i : Int) ∧
        i < arr.length ∧ arr[i]? = some target ∧
        ∀ k : Nat, arr[k]? = some target → i ≤ k) ∧
      (target ∉ arr → BinarySearchFirst arr target = some (-1)) := by
  have hloop := binarySearchFirstLoop_spec arr target hs (arr.length + 1) 0 (arr.length - 1)
    (-1) (le_refl _) (by omega) (by omega) (by push_cast; omega)
    (fun k v hk _ => by omega)
    (Or.inl ⟨rfl, fun k hk hkt => by
      have := (List.getElem?_eq_some.1 hkt).1
      omega⟩)
  obtain ⟨r, hr, hcase⟩ := hloop
  unfold BinarySearchFirst
  rw [hr]
  constructor
  · intro hmem
    obtain ⟨k, hk⟩ := exists_index_of_mem hmem
    rcases hcase with ⟨_, hno⟩ | ⟨h0, h1, h2, h3⟩
    · exact absurd hk (hno k)
    · refine ⟨r.toNat, by rw [Int.toNat_of_nonneg h0], by omega, h2, ?_⟩
      intro j hj
      have := h3 j hj
      omega
  · intro hnot
    rcases hcase with ⟨h, _⟩ | ⟨_, _, h2, _⟩
    · rw [h]
    · exact absurd (mem_of_index h2) hnot

theorem binarySearchFirst_correct_witness :
    ([1, 3, 3, 3, 8] : List Int).Pairwise (· ≤ ·) ∧
      ((3 ∈ ([1, 3, 3, 3, 8] : List Int) →
          ∃ i : Nat, BinarySearchFirst [1, 3, 3, 3, 8] 3 = some (i : Int) ∧
            i < ([1, 3, 3, 3, 8] : List Int).length ∧
            ([1, 3, 3, 3, 8] : List Int)[i]? = some 3 ∧
            ∀ k : Nat, ([1, 3, 3, 3, 8] : List Int)[k]? = some 3 → i ≤ k) ∧
        (3 ∉ ([1, 3, 3, 3, 8] : List Int) →
          BinarySearchFirst [1, 3, 3, 3, 8] 3 = some (-1))) :=
  ⟨by decide, binarySearchFirst_correct [1, 3, 3, 3, 8] 3 (by decide)⟩

/-- C23: on a slice sorted in non-decreasing order, `BinarySearchLast`
returns the largest index holding `target` when `target` occurs in `arr`,
and -1 when it does not. -/
theorem binarySearchLast_correct (arr : List Int) (target : Int)
    (hs : arr.Pairwise (· ≤ ·)) :
    (target ∈ arr → ∃ i : Nat, BinarySearchLast arr target = some (i : Int) ∧
        i < arr.length ∧ arr[i]? = some target ∧
        ∀ k : Nat, arr[k]? = some target → k ≤ i) ∧
      (target ∉ arr → BinarySearchLast arr target = some (-1)) := by
  have hloop := binarySearchLastLoop_spec arr target hs (arr.length + 1) 0 (arr.length - 1)
    (-1) (le_refl _) (by omega) (by omega) (by push_cast; omega)
    (fun k v hk hkv => by
      have := (List.getElem?_eq_some.1 hkv).1
      omega)
    (Or.inl ⟨rfl, fun k hk _ => by omega⟩)
  obtain ⟨r, hr, hcase⟩ := hloop
  unfold BinarySearchLast
  rw [hr]
  constructor
  · intro hmem
    obtain ⟨k, hk⟩ := exists_index_of_mem hmem
    rcases hcase with ⟨_, hno⟩ | ⟨h0, h1, h2, h3⟩
    · exact absurd hk (hno k)
    · refine ⟨r.toNat, by rw [Int.toNat_of_nonneg h0], by omega, h2, ?_⟩
      intro j hj
      have := h3 j hj
      omega
  · intro hnot
    rcases hcase with ⟨h, _⟩ | ⟨_, _, h2, _⟩
    · rw [h]
    · exact absurd (mem_of_index h2) hnot

theorem binarySearchLast_correct_witness :
    ([1, 3, 3, 3, 8] : List Int).Pairwise (· ≤ ·) ∧
      ((3 ∈ ([1, 3, 3, 3, 8] : List Int) →
          ∃ i : Nat, BinarySearchLast [1, 3, 3, 3, 8] 3 = some (i : Int) ∧
            i < ([1, 3, 3, 3, 8] : List Int).length ∧
            ([1, 3, 3, 3, 8] : List Int)[i]? = some 3 ∧
            ∀ k : Nat, ([1, 3, 3, 3, 8] : List Int)[k]? = some 3 → k ≤ i) ∧
        (3 ∉ ([1, 3, 3, 3, 8] : List Int) →
          BinarySearchLast [1, 3, 3, 3, 8] 3 = some (-1))) :=
  ⟨by decide, binarySearchLast_correct [1, 3, 3, 3, 8] 3 (by decide)⟩

/-! ## Singly linked list -/

theorem linkAtEnd_toList (newNode : NodePtr) (nx : NodePtr) :
    ∀ d : Int, (linkAtEnd newNode d nx).toList = d :: (nx.toList ++ newNode.toList) := by
  induction nx with
  | nil => intro d; simp [linkAtEnd, NodePtr.toList]
  | node d' nx ih => intro d; simp [linkAtEnd, NodePtr.toList, ih]

theorem count_eq_length (p : NodePtr) : p.count = p.toList.length := by
  induction p with
  | nil => rfl
  | node d nx ih => simp [NodePtr.count, NodePtr.toList, ih]

theorem add_toList (ll : LinkedList) (d : Int) :
    (ll.Add d).Head.toList = ll.Head.toList ++ [d] := by
  unfold LinkedList.Add
  cases h : ll.Head with
  | nil => simp [NodePtr.toList]
  | node d' nx => simp [NodePtr.toList, linkAtEnd_toList]

theorem unlinkAfter_count (data : Int) (nx : NodePtr) :
    ∀ (d : Int) (c : NodePtr), unlinkAfter data d nx = some c → c.count + 1 = nx.count + 1 := by
  induction nx with
  | nil => intro d c h; simp [unlinkAfter] at h
  | node d' nx ih =>
    intro d c h
    unfold unlinkAfter at h
    split_ifs at h with heq
    · cases h; simp [NodePtr.count]
    · cases h2 : unlinkAfter data d' nx with
      | none => rw [h2] at h; simp at h
      | some c' =>
        rw [h2] at h
        cases h
        have := ih d' c' h2
        simp only [NodePtr.count]
        omega

theorem add_sizeOk (ll : LinkedList) (d : Int) (h : ll.SizeOk) : (ll.Add d).SizeOk := by
  unfold LinkedList.SizeOk at h ⊢
  have hs : (ll.Add d).Size = ll.Size + 1 := by
    unfold LinkedList.Add
    cases ll.Head <;> rfl
  rw [count_eq_length, add_toList, hs, h, count_eq_length]
  simp

theorem addAtBeginning_sizeOk (ll : LinkedList) (d : Int) (h : ll.SizeOk) :
    (ll.AddAtBeginning d).SizeOk := by
  unfold LinkedList.SizeOk at h ⊢
  simp [LinkedList.AddAtBeginning, NodePtr.count, h]

theorem delete_sizeOk (ll : LinkedList) (d : Int) (h : ll.SizeOk) : (ll.Delete d).2.SizeOk := by
  unfold LinkedList.SizeOk at h ⊢
  unfold LinkedList.Delete
  cases hh : ll.Head with
  | nil => simpa [hh] using h
  | node d' nx =>
    rw [hh] at h
    simp only [NodePtr.count] at h
    simp only
    split_ifs with heq
    · simp only; rw [h]; push_cast; omega
    · cases h2 : unlinkAfter d d' nx with
      | none => simp only [hh, NodePtr.count]; exact h
      | some c =>
        have := unlinkAfter_count d nx d' c h2
        simp only
        rw [h]
        push_cast
        omega

theorem applyAll_sizeOk (ops : List ListOp) :
    ∀ ll : LinkedList, ll.SizeOk → (ll.applyAll ops).SizeOk := by
  induction ops with
  | nil => intro ll h; exact h
  | cons op ops ih =>
    intro ll h
    apply ih
    cases op with
    | add d => exact add_sizeOk ll d h
    | addAtBeginning d => exact addAtBeginning_sizeOk ll d h
    | delete d => exact delete_sizeOk ll d h

/-- C29: in every list reachable from `NewLinkedList` by `Add`,
`AddAtBeginning` and `Delete` calls, `GetSize` is the number of nodes
reachable from `Head`, and it is never negative. -/
theorem getSize_eq_node_count (ops : List ListOp) :
    (NewLinkedList.applyAll ops).GetSize = ((NewLinkedList.applyAll ops).Head.count : Int) ∧
      0 ≤ (NewLinkedList.applyAll ops).GetSize := by
  have h : (NewLinkedList.applyAll ops).SizeOk := applyAll_sizeOk ops NewLinkedList rfl
  unfold LinkedList.SizeOk at h
  unfold LinkedList.GetSize
  rw [h]
  exact ⟨rfl, Int.ofNat_nonneg _⟩

/-- C30: `Add` appends at the end: after `Add(d)` the list holds the elements
it held, in the same order, followed by `d`. -/
theorem add_appends (ll : LinkedList) (xs : List Int) (d : Int)
    (h : ll.Head.toList = xs) :
    (ll.Add d).Head.toList = xs ++ [d] := by
  rw [← h]; exact add_toList ll d

theorem add_appends_witness :
    ((NewLinkedList.Add 4).AddAtBeginning 7).Head.toList = [7, 4] ∧
      (((NewLinkedList.Add 4).AddAtBeginning 7).Add 4).Head.toList = [7, 4] ++ [4] :=
  ⟨by decide, add_appends _ [7, 4] 4 (by decide)⟩

/-! ## Sorting -/

/-- Reading the element behind a prefix. -/
theorem index_append_cons (A : List Int) (a : Int) (C : List Int) (i : Int)
    (hi : i = A.length) : index (A ++ a :: C) i = some a := by
  subst hi
  unfold index
  rw [if_pos (by omega)]
  simp only [Int.toNat_ofNat]
  rw [List.getElem?_append_right (le_refl _)]
  simp

/-- Writing the element behind a prefix. -/
theorem assign_append_cons (A : List Int) (a : Int) (C : List Int) (i : Int) (v : Int)
    (hi : i = A.length) : assign (A ++ a :: C) i v = some (A ++ v :: C) := by
  subst hi
  have h : (0 : Int) ≤ (A.length : Int) ∧ (A.length : Int) < ((A ++ a :: C).length : Int) := by
    simp
  simp only [assign, h, and_self, if_true, Int.toNat_ofNat]
  congr 1
  induction A with
  | nil => rfl
  | cons x A ih => simp [List.set, ih]

/-- Swapping an element with itself changes nothing. -/
theorem swap_self (A : List Int) (a : Int) (C : List Int) (i : Int) (hi : i = A.length) :
    swap (A ++ a :: C) i i = some (A ++ a :: C) := by
  simp [swap, index_append_cons A a C i hi, assign_append_cons A a C i a hi]

/-- Swapping two elements of a slice. -/
theorem swap_append (A : List Int) (a : Int) (B : List Int) (b : Int) (C : List Int)
    (i j : Int) (hi : i = A.length) (hj : j = A.length + 1 + B.length) :
    swap (A ++ a :: (B ++ b :: C)) i j = some (A ++ b :: (B ++ a :: C)) := by
  have e1 : A ++ a :: (B ++ b :: C) = (A ++ a :: B) ++ b :: C := by simp
  have hj2 : j = ((A ++ a :: B).length : Int) := by simp; omega
  have h1 : index (A ++ a :: (B ++ b :: C)) j = some b := by
    rw [e1]; exact index_append_cons _ b C j hj2
  have h2 : index (A ++ a :: (B ++ b :: C)) i = some a := index_append_cons A a _ i hi
  have h3 : assign (A ++ a :: (B ++ b :: C)) i b = some (A ++ b :: (B ++ b :: C)) :=
    assign_append_cons A a _ i b hi
  have e2 : A ++ b :: (B ++ b :: C) = (A ++ b :: B) ++ b :: C := by simp
  have hj3 : j = ((A ++ b :: B).length : Int) := by simp; omega
  have h4 : assign (A ++ b :: (B ++ b :: C)) j a = some (A ++ b :: (B ++ a :: C)) := by
    rw [e2, assign_append_cons _ b C j a hj3]; simp
  simp [swap, h1, h2, h3, h4]

/-- One step of the loop of `partition`, unfolded. -/
theorem partitionLoop_succ (cmp : Int → Int → Bool) (pv : Int) (n : Nat) (j i : Int)
    (arr : List Int) (aj : Int) (h : index arr j = some aj) :
    partitionLoop cmp pv (n + 1) j i arr =
      if cmp aj pv then (swap arr (i + 1) j).bind (partitionLoop cmp pv n (j + 1) (i + 1))
      else partitionLoop cmp pv n (j + 1) i arr := by
  simp only [partitionLoop, h, Option.bind_eq_bind, Option.some_bind]

/-- The loop of `partition` on a slice `pre ++ L ++ G ++ todo ++ rest`, where
`L` holds the elements moved to the left so far and `G` the others. -/
theorem partitionLoop_spec (cmp : Int → Int → Bool) (pv : Int) (pre rest : List Int) :
    ∀ (todo L G : List Int) (j i : Int),
      j = (pre.length : Int) + L.length + G.length → i = (pre.length : Int) + L.length - 1 →
      (∀ x ∈ L, cmp x pv = true) → (∀ x ∈ G, cmp x pv = false) →
      ∃ L' G', partitionLoop cmp pv todo.length j i (pre ++ (L ++ (G ++ (todo ++ rest))))
          = some (pre ++ (L' ++ (G' ++ rest)), (pre.length : Int) + L'.length - 1) ∧
        (L' ++ G').Perm (L ++ (G ++ todo)) ∧
        (∀ x ∈ L', cmp x pv = true) ∧ (∀ x ∈ G', cmp x pv = false) := by
  intro todo
  induction todo with
  | nil =>
    intro L G j i _ hi hL hG
    exact ⟨L, G, by simp [partitionLoop, hi], by simp, hL, hG⟩
  | cons x t ih =>
    intro L G j i hj hi hL hG
    have hidx : index (pre ++ (L ++ (G ++ (x :: t ++ rest)))) j = some x := by
      have e : pre ++ (L ++ (G ++ (x :: t ++ rest))) = (pre ++ L ++ G) ++ x :: (t ++ rest) := by
        simp
      rw [e]
      exact index_append_cons _ x _ j (by simp; omega)
    rw [List.length_cons, partitionLoop_succ cmp pv _ j i _ x hidx]
    by_cases hc : cmp x pv = true
    · rw [if_pos hc]
      have hL2 : ∀ y ∈ L ++ [x], cmp y pv = true := by
        intro y hy
        rcases List.mem_append.1 hy with h | h
        · exact hL y h
        · simp at h; subst h; exact hc
      cases G with
      | nil =>
        have hsw : swap (pre ++ (L ++ ([] ++ (x :: t ++ rest)))) (i + 1) j
            = some (pre ++ ((L ++ [x]) ++ ([] ++ (t ++ rest)))) := by
          have e : pre ++ (L ++ ([] ++ (x :: t ++ rest))) = (pre ++ L) ++ x :: (t ++ rest) := by
            simp
          have e2 : pre ++ ((L ++ [x]) ++ ([] ++ (t ++ rest))) = (pre ++ L) ++ x :: (t ++ rest) := by
            simp
          have hij : i + 1 = j := by simp at hj; omega
          rw [e, e2, hij]
          exact swap_self _ x _ j (by simp at hj ⊢; omega)
        rw [hsw, Option.some_bind]
        obtain ⟨L', G', h1, h2, h3, h4⟩ := ih (L ++ [x]) [] (j + 1) (i + 1)
          (by simp at hj ⊢; omega) (by simp; omega) hL2 (by simp)
        refine ⟨L', G', h1, ?_, h3, h4⟩
        refine h2.trans ?_
        simp
      | cons g G2 =>
        have hG2 : ∀ y ∈ G2 ++ [g], cmp y pv = false := by
          intro y hy
          apply hG
          rcases List.mem_append.1 hy with h | h
          · exact List.mem_cons_of_mem _ h
          · simp at h; subst h; exact List.mem_cons_self _ _
        have hsw : swap (pre ++ (L ++ ((g :: G2) ++ (x :: t ++ rest)))) (i + 1) j
            = some (pre ++ ((L ++ [x]) ++ ((G2 ++ [g]) ++ (t ++ rest)))) := by
          have e : pre ++ (L ++ ((g :: G2) ++ (x :: t ++ rest)))
              = (pre ++ L) ++ g :: (G2 ++ x :: (t ++ rest)) := by simp
          have e2 : pre ++ ((L ++ [x]) ++ ((G2 ++ [g]) ++ (t ++ rest)))
              = (pre ++ L) ++ x :: (G2 ++ g :: (t ++ rest)) := by simp
          rw [e, e2]
          exact swap_append _ g G2 x _ (i + 1) j (by simp; omega) (by simp at hj ⊢; omega)
        rw [hsw, Option.some_bind]
        obtain ⟨L', G', h1, h2, h3, h4⟩ := ih (L ++ [x]) (G2 ++ [g]) (j + 1) (i + 1)
          (by simp at hj ⊢; omega) (by simp; omega) hL2 hG2
        refine ⟨L', G', h1, ?_, h3, h4⟩
        refine h2.trans ?_
        simp only [List.append_assoc, List.singleton_append, List.cons_append]
        apply List.Perm.append_left
        exact (List.perm_middle.cons x).trans
          ((List.Perm.swap g x _).trans (List.perm_middle.symm.cons g))
    · rw [if_neg hc]
      have hc2 : cmp x pv = false := by simpa using hc
      have hG2 : ∀ y ∈ G ++ [x], cmp y pv = false := by
        intro y hy
        rcases List.mem_append.1 hy with h | h
        · exact hG y h
        · simp at h; subst h; exact hc2
      have e : pre ++ (L ++ (G ++ (x :: t ++ rest))) = pre ++ (L ++ ((G ++ [x]) ++ (t ++ rest))) := by
        simp
      rw [e]
      obtain ⟨L', G', h1, h2, h3, h4⟩ := ih L (G ++ [x]) (j + 1) i
        (by simp at hj ⊢; omega) hi hL hG2
      refine ⟨L', G', h1, ?_, h3, h4⟩
      refine h2.trans ?_
      simp

/-- The partition step on a segment `seg ++ [pv]` between `pre` and `post`:
the pivot `pv` ends between the elements `L` that compare true with it and
the elements `G` that do not. -/
theorem partitionBy_spec (cmp : Int → Int → Bool) (pre seg : List Int) (pv : Int)
    (post : List Int) (low high : Int) (hlow : low = pre.length)
    (hhigh : high = (pre.length : Int) + seg.length) :
    ∃ L G, partitionBy cmp (pre ++ (seg ++ pv :: post)) low high
        = some (pre ++ (L ++ pv :: (G ++ post)), (pre.length : Int) + L.length) ∧
      (L ++ G).Perm seg ∧
      (∀ x ∈ L, cmp x pv = true) ∧ (∀ x ∈ G, cmp x pv = false) := by
  have hidx : index (pre ++ (seg ++ pv :: post)) high = some pv := by
    have e : pre ++ (seg ++ pv :: post) = (pre ++ seg) ++ pv :: post := by simp
    rw [e]
    exact index_append_cons _ pv _ high (by simp; omega)
  obtain ⟨L, G, hloop, hperm, hL, hG⟩ := partitionLoop_spec cmp pv pre (pv :: post)
    seg [] [] low (low - 1) (by simp; omega) (by simp; omega) (by simp) (by simp)
  have hn : (high - low).toNat = seg.length := by omega
  have hlen : L.length + G.length = seg.length := by
    have := hperm.length_eq
    simpa using this
  simp only [List.nil_append] at hloop hperm
  simp only [partitionBy, hidx, hn, hloop, Option.bind_eq_bind, Option.some_bind]
  cases G with
  | nil =>
    refine ⟨L, [], ?_, hperm, hL, hG⟩
    have e : pre ++ (L ++ ([] ++ pv :: post)) = (pre ++ L) ++ pv :: post := by simp
    have hsw := swap_self (pre ++ L) pv post high (by simp at hlen ⊢; omega)
    have hi : (pre.length : Int) + L.length - 1 + 1 = high := by simp at hlen; omega
    rw [e, hi, hsw]
    simp
    omega
  | cons g G2 =>
    refine ⟨L, G2 ++ [g], ?_, ?_, hL, ?_⟩
    · have e : pre ++ (L ++ ((g :: G2) ++ pv :: post)) = (pre ++ L) ++ g :: (G2 ++ pv :: post) := by
        simp
      have hsw := swap_append (pre ++ L) g G2 pv post ((pre.length : Int) + L.length - 1 + 1) high
        (by simp) (by simp at hlen ⊢; omega)
      rw [e, hsw]
      simp
    · refine List.Perm.trans ?_ hperm
      apply List.Perm.append_left
      exact (List.perm_append_singleton g G2)
    · intro y hy
      apply hG
      rcases List.mem_append.1 hy with h | h
      · exact List.mem_cons_of_mem _ h
      · simp at h; subst h; exact List.mem_cons_self _ _

/-- The recursion of quicksort, unfolded once. -/
theorem quickSortHelperBy_succ (cmp : Int → Int → Bool) (fuel : Nat) (arr : List Int)
    (low high : Int) (h : low < high) :
    quickSortHelperBy cmp (fuel + 1) arr low high =
      (partitionBy cmp arr low high).bind (fun r =>
        (quickSortHelperBy cmp fuel r.1 low (r.2 - 1)).bind (fun arr2 =>
          quickSortHelperBy cmp fuel arr2 (r.2 + 1) high)) := by
  rw [quickSortHelperBy]
  simp only [h, if_true, Option.bind_eq_bind]

theorem quickSortHelperBy_done (cmp : Int → Int → Bool) (fuel : Nat) (arr : List Int)
    (low high : Int) (h : ¬ low < high) :
    quickSortHelperBy cmp fuel arr low high = some arr := by
  rw [quickSortHelperBy.eq_def]
  simp only [h, if_false]

/-- Quicksort on the segment `seg` between `pre` and `post`, for a comparison
that is total and transitive: the segment is replaced by a sorted permutation
of itself and the rest of the slice is left alone. -/
theorem quickSortHelperBy_spec (cmp : Int → Int → Bool)
    (htot : ∀ a b, cmp a b = false → cmp b a = true)
    (htrans : ∀ a b c, cmp a b = true → cmp b c = true → cmp a c = true) :
    ∀ (fuel : Nat) (pre seg post : List Int) (low high : Int),
      low = pre.length → high = (pre.length : Int) + seg.length - 1 →
      seg.length ≤ fuel + 1 →
      ∃ seg', quickSortHelperBy cmp fuel (pre ++ (seg ++ post)) low high
          = some (pre ++ (seg' ++ post)) ∧
        seg'.Perm seg ∧ seg'.Pairwise (fun a b => cmp a b = true) := by
  intro fuel
  induction fuel with
  | zero =>
    intro pre seg post low high hlow hhigh hlen
    refine ⟨seg, quickSortHelperBy_done cmp 0 _ low high (by omega), List.Perm.refl _, ?_⟩
    match seg, hlen with
    | [], _ => exact List.Pairwise.nil
    | [a], _ => exact List.pairwise_singleton _ a
  | succ fuel ih =>
    intro pre seg post low high hlow hhigh hlen
    by_cases hlt : low < high
    · rw [quickSortHelperBy_succ cmp fuel _ low high hlt]
      rcases List.eq_nil_or_concat seg with hnil | ⟨s, pv, hs⟩
      · subst hnil; simp at hhigh; omega
      rw [List.concat_eq_append] at hs
      subst hs
      obtain ⟨L, G, hpart, hperm, hL, hG⟩ := partitionBy_spec cmp pre s pv post low high hlow
        (by simp at hhigh; omega)
      have e0 : pre ++ ((s ++ [pv]) ++ post) = pre ++ (s ++ pv :: post) := by simp
      have hlen2 : L.length + G.length = s.length := by
        have := hperm.length_eq
        simpa using this
      rw [e0, hpart, Option.some_bind]
      simp only
      obtain ⟨L', h1, hpL, hsL⟩ := ih pre L (pv :: (G ++ post)) low
        ((pre.length : Int) + L.length - 1) hlow rfl (by simp at hlen; omega)
      rw [h1, Option.some_bind]
      have e1 : pre ++ (L' ++ pv :: (G ++ post)) = (pre ++ (L' ++ [pv])) ++ (G ++ post) := by simp
      have hLlen : L'.length = L.length := hpL.length_eq
      obtain ⟨G', h2, hpG, hsG⟩ := ih (pre ++ (L' ++ [pv])) G post
        ((pre.length : Int) + L.length + 1) high (by simp; omega)
        (by simp at hhigh ⊢; omega) (by simp at hlen; omega)
      rw [e1, h2]
      refine ⟨L' ++ pv :: G', by simp, ?_, ?_⟩
      · have p1 : (L' ++ pv :: G').Perm (L ++ pv :: G) :=
          List.Perm.append hpL (List.Perm.cons pv hpG)
        refine p1.trans ?_
        refine List.perm_middle.trans ?_
        refine (List.Perm.cons pv hperm).trans ?_
        exact (List.perm_append_singleton pv s).symm
      · rw [List.pairwise_append]
        refine ⟨hsL, ?_, ?_⟩
        · rw [List.pairwise_cons]
          refine ⟨?_, hsG⟩
          intro b hb
          exact htot b pv (hG b (hpG.subset hb))
        · intro a ha b hb
          have hapv : cmp a pv = true := hL a (hpL.subset ha)
          rcases List.mem_cons.1 hb with h | h
          · subst h; exact hapv
          · exact htrans a pv b hapv (htot b pv (hG b (hpG.subset h)))
    · refine ⟨seg, quickSortHelperBy_done cmp _ _ low high hlt, List.Perm.refl _, ?_⟩
      have hl : seg.length ≤ 1 := by omega
      match seg, hl with
      | [], _ => exact List.Pairwise.nil
      | [a], _ => exact List.pairwise_singleton _ a

/-- The copy loop of `merge`: with `done` copied already, it copies `todo`
from behind the offset into the temporary array. -/
theorem copyFrom_spec (A C : List Int) (off : Int) (hoff : off = A.length) :
    ∀ (todo done junk : List Int) (i : Int), i = done.length → junk.length = todo.length →
      copyFrom (A ++ (done ++ (todo ++ C))) off todo.length i (done ++ junk)
        = some (done ++ todo) := by
  intro todo
  induction todo with
  | nil =>
    intro done junk i _ hj
    have : junk = [] := List.length_eq_zero.1 hj
    subst this
    simp [copyFrom]
  | cons x t ih =>
    intro done junk i hi hj
    match junk, hj with
    | y :: junk', hj =>
      have hidx : index (A ++ (done ++ (x :: t ++ C))) (off + i) = some x := by
        have e : A ++ (done ++ (x :: t ++ C)) = (A ++ done) ++ x :: (t ++ C) := by simp
        rw [e]
        exact index_append_cons _ x _ _ (by simp; omega)
      have hasg : assign (done ++ y :: junk') i x = some ((done ++ [x]) ++ junk') := by
        rw [assign_append_cons done y junk' i x hi]
        simp
      have e2 : A ++ (done ++ (x :: t ++ C)) = A ++ ((done ++ [x]) ++ (t ++ C)) := by simp
      simp only [List.length_cons, copyFrom, hidx, hasg, Option.bind_eq_bind, Option.some_bind]
      rw [e2, ih (done ++ [x]) junk' (i + 1) (by simp; omega) (by simpa using hj)]
      simp

/-- The loops of `merge` that copy the rest of a temporary array: they write
`todo` over the next elements of the slice. -/
theorem copyRest_spec (sdone : List Int) :
    ∀ (todo X junk Y : List Int) (i k : Int), i = sdone.length → k = X.length →
      junk.length = todo.length →
      copyRest (sdone ++ todo) todo.length i k (X ++ (junk ++ Y))
        = some (X ++ (todo ++ Y), k + todo.length) := by
  intro todo
  induction todo generalizing sdone with
  | nil =>
    intro X junk Y i k _ _ hj
    have : junk = [] := List.length_eq_zero.1 hj
    subst this
    simp [copyRest]
  | cons x t ih =>
    intro X junk Y i k hi hk hj
    match junk, hj with
    | y :: junk', hj =>
      have hidx : index (sdone ++ x :: t) i = some x := index_append_cons _ x _ i hi
      have hasg : assign (X ++ (y :: junk' ++ Y)) k x = some ((X ++ [x]) ++ (junk' ++ Y)) := by
        have e : X ++ (y :: junk' ++ Y) = X ++ y :: (junk' ++ Y) := by simp
        rw [e, assign_append_cons X y _ k x hk]
        simp
      have e2 : sdone ++ x :: t = (sdone ++ [x]) ++ t := by simp
      simp only [List.length_cons, copyRest, hidx, hasg, Option.bind_eq_bind, Option.some_bind]
      rw [e2, ih (sdone ++ [x]) (X ++ [x]) junk' Y (i + 1) (k + 1) (by simp; omega)
        (by simp; omega) (by simpa using hj)]
      simp
      omega

/-- The main loop of `merge`, unfolded once. -/
theorem mergeLoop_step (cmp : Int → Int → Bool) (A B : List Int) (n1 n2 : Int) (fuel : Nat)
    (i j k : Int) (arr : List Int) (a b : Int) (h : i < n1 ∧ j < n2)
    (ha : index A i = some a) (hb : index B j = some b) :
    mergeLoop cmp A B n1 n2 (fuel + 1) i j k arr =
      if cmp a b then (assign arr k a).bind (mergeLoop cmp A B n1 n2 fuel (i + 1) j (k + 1))
      else (assign arr k b).bind (mergeLoop cmp A B n1 n2 fuel i (j + 1) (k + 1)) := by
  rw [mergeLoop]
  simp only [h, and_self, if_true, ha, hb, Option.bind_eq_bind, Option.some_bind]

theorem mergeLoop_done (cmp : Int → Int → Bool) (A B : List Int) (n1 n2 : Int) (fuel : Nat)
    (i j k : Int) (arr : List Int) (h : ¬ (i < n1 ∧ j < n2)) :
    mergeLoop cmp A B n1 n2 fuel i j k arr = some (arr, i, j, k) := by
  rw [mergeLoop.eq_def]
  simp only [h, if_false]

/-- The main loop of `merge` with `A'` left of the first temporary array and
`B'` of the second: it writes a prefix `D` of their merge and stops when one
of them is used up. -/
theorem mergeLoop_spec (cmp : Int → Int → Bool) (A B Y : List Int) :
    ∀ (fuel : Nat) (A' B' Adone Bdone X J : List Int) (i j k : Int),
      A = Adone ++ A' → B = Bdone ++ B' → i = Adone.length → j = Bdone.length →
      k = X.length → J.length = A'.length + B'.length → A'.length + B'.length ≤ fuel →
      ∃ D A2 B2 Ad2 Bd2 J2,
        mergeLoop cmp A B A.length B.length fuel i j k (X ++ (J ++ Y))
          = some (X ++ (D ++ (J2 ++ Y)), (Ad2.length : Int), (Bd2.length : Int),
              k + D.length) ∧
        A = Ad2 ++ A2 ∧ B = Bd2 ++ B2 ∧ (A2 = [] ∨ B2 = []) ∧
        J2.length = A2.length + B2.length ∧
        D ++ (A2 ++ B2) = List.merge A' B' cmp := by
  intro fuel
  induction fuel with
  | zero =>
    intro A' B' Adone Bdone X J i j k hA hB hi hj hk hJ hf
    have hA' : A' = [] := List.length_eq_zero.1 (by omega)
    have hB' : B' = [] := List.length_eq_zero.1 (by omega)
    subst hA' hB'
    refine ⟨[], [], [], Adone, Bdone, J, ?_, hA, hB, Or.inl rfl, hJ, by simp⟩
    rw [mergeLoop_done]
    · simp [hi, hj]
    · rw [hA, hi]; simp
  | succ fuel ih =>
    intro A' B' Adone Bdone X J i j k hA hB hi hj hk hJ hf
    match A', B', hA, hB, hJ, hf with
    | [], B', hA, hB, hJ, _ =>
      refine ⟨[], [], B', Adone, Bdone, J, ?_, hA, hB, Or.inl rfl, by simpa using hJ, by simp⟩
      rw [mergeLoop_done]
      · simp [hi, hj]
      · rw [hA, hi]; simp
    | a :: A2, [], hA, hB, hJ, _ =>
      refine ⟨[], a :: A2, [], Adone, Bdone, J, ?_, hA, hB, Or.inr rfl, by simpa using hJ,
        by simp⟩
      rw [mergeLoop_done]
      · simp [hi, hj]
      · rw [hB, hj]; simp
    | a :: A2, b :: B2, hA, hB, hJ, hf =>
      have hcond : i < (A.length : Int) ∧ j < (B.length : Int) := by
        rw [hA, hB, hi, hj]; simp
      have hia : index A i = some a := by rw [hA]; exact index_append_cons _ a _ i hi
      have hjb : index B j = some b := by rw [hB]; exact index_append_cons _ b _ j hj
      rw [mergeLoop_step cmp A B _ _ fuel i j k _ a b hcond hia hjb]
      match J, hJ with
      | y :: J', hJ =>
        by_cases hc : cmp a b = true
        · rw [if_pos hc]
          have hasg : assign (X ++ (y :: J' ++ Y)) k a = some ((X ++ [a]) ++ (J' ++ Y)) := by
            have e : X ++ (y :: J' ++ Y) = X ++ y :: (J' ++ Y) := by simp
            rw [e, assign_append_cons X y _ k a hk]
            simp
          rw [hasg, Option.some_bind]
          obtain ⟨D, A3, B3, Ad3, Bd3, J3, h1, h2, h3, h4, h5, h6⟩ :=
            ih A2 (b :: B2) (Adone ++ [a]) Bdone (X ++ [a]) J' (i + 1) j (k + 1)
              (by simp [hA]) hB (by simp; omega) hj (by simp; omega)
              (by simp at hJ ⊢; omega) (by simp at hf ⊢; omega)
          refine ⟨a :: D, A3, B3, Ad3, Bd3, J3, ?_, h2, h3, h4, h5, ?_⟩
          · rw [h1]
            simp
            omega
          · rw [List.merge, if_pos hc, ← h6]
            simp
        · rw [if_neg hc]
          have hasg : assign (X ++ (y :: J' ++ Y)) k b = some ((X ++ [b]) ++ (J' ++ Y)) := by
            have e : X ++ (y :: J' ++ Y) = X ++ y :: (J' ++ Y) := by simp
            rw [e, assign_append_cons X y _ k b hk]
            simp
          rw [hasg, Option.some_bind]
          obtain ⟨D, A3, B3, Ad3, Bd3, J3, h1, h2, h3, h4, h5, h6⟩ :=
            ih (a :: A2) B2 Adone (Bdone ++ [b]) (X ++ [b]) J' i (j + 1) (k + 1)
              hA (by simp [hB]) hi (by simp; omega) (by simp; omega)
              (by simp at hJ ⊢; omega) (by simp at hf ⊢; omega)
          refine ⟨b :: D, A3, B3, Ad3, Bd3, J3, ?_, h2, h3, h4, h5, ?_⟩
          · rw [h1]
            simp
            omega
          · rw [List.merge, if_neg hc, ← h6]
            simp

theorem makeSlice_length (n : Nat) : makeSlice (n : Int) = some (List.replicate n 0) := by
  simp [makeSlice]

/-- `merge` on two adjacent segments `A` and `B` between `pre` and `post`: the
two segments are replaced by their merge. -/
theorem mergeBy_spec (cmp : Int → Int → Bool) (pre A B post : List Int)
    (left mid right : Int) (hleft : left = pre.length)
    (hmid : mid = (pre.length : Int) + A.length - 1)
    (hright : right = (pre.length : Int) + A.length + B.length - 1) :
    mergeBy cmp (pre ++ (A ++ (B ++ post))) left mid right
      = some (pre ++ (List.merge A B cmp ++ post)) := by
  have hn1 : mid - left + 1 = (A.length : Int) := by omega
  have hn2 : right - mid = (B.length : Int) := by omega
  have hsum : ((A.length : Int) + (B.length : Int)).toNat = A.length + B.length := by omega
  have h3 : copyFrom (pre ++ (A ++ (B ++ post))) left A.length 0 (List.replicate A.length 0)
      = some A := by
    have := copyFrom_spec pre (B ++ post) left hleft A [] (List.replicate A.length 0) 0
      (by simp) (by simp)
    simpa using this
  have h4 : copyFrom (pre ++ (A ++ (B ++ post))) (mid + 1) B.length 0
      (List.replicate B.length 0) = some B := by
    have := copyFrom_spec (pre ++ A) post (mid + 1) (by simp; omega) B []
      (List.replicate B.length 0) 0 (by simp) (by simp)
    simpa using this
  obtain ⟨D, A2, B2, Ad2, Bd2, J2, h5, hA2, hB2, hor, hJ2, hD⟩ :=
    mergeLoop_spec cmp A B post (A.length + B.length) A B [] [] pre (A ++ B) 0 0 left
      (by simp) (by simp) (by simp) (by simp) hleft (by simp) (le_refl _)
  have e5 : pre ++ ((A ++ B) ++ post) = pre ++ (A ++ (B ++ post)) := by simp
  rw [e5] at h5
  have hlenA : A.length = Ad2.length + A2.length := by rw [hA2]; simp
  have hlenB : B.length = Bd2.length + B2.length := by rw [hB2]; simp
  have hcA : ((A.length : Int) - (Ad2.length : Int)).toNat = A2.length := by omega
  have hcB : ((B.length : Int) - (Bd2.length : Int)).toNat = B2.length := by omega
  have h6 : copyRest A A2.length (Ad2.length : Int) (left + D.length)
      (pre ++ (D ++ (J2 ++ post)))
      = some ((pre ++ D) ++ (A2 ++ (J2.drop A2.length ++ post)),
          left + D.length + A2.length) := by
    have := copyRest_spec Ad2 A2 (pre ++ D) (J2.take A2.length) (J2.drop A2.length ++ post)
      (Ad2.length : Int) (left + D.length) rfl (by simp; omega)
      (by rw [List.length_take]; omega)
    rw [← hA2] at this
    have hJ' : J2 ++ post = J2.take A2.length ++ (J2.drop A2.length ++ post) := by
      rw [← List.append_assoc, List.take_append_drop]
    rw [← this, hJ']
    simp
  have h7 : copyRest B B2.length (Bd2.length : Int) (left + D.length + A2.length)
      ((pre ++ D) ++ (A2 ++ (J2.drop A2.length ++ post)))
      = some (((pre ++ D) ++ A2) ++ (B2 ++ post),
          left + D.length + A2.length + B2.length) := by
    have := copyRest_spec Bd2 B2 ((pre ++ D) ++ A2) (J2.drop A2.length) post
      (Bd2.length : Int) (left + D.length + A2.length) rfl (by simp; omega)
      (by rw [List.length_drop]; omega)
    rw [← hB2] at this
    rw [← this]
    congr 1
    simp
  simp only [mergeBy, hn1, hn2, hsum, Int.toNat_ofNat, makeSlice_length, h3, h4, h5, hcA, hcB,
    h6, h7, Option.bind_eq_bind, Option.some_bind]
  rw [← hD]
  simp

/-- The recursion of merge sort, unfolded once. -/
theorem mergeSortHelperBy_succ (cmp : Int → Int → Bool) (fuel : Nat) (arr : List Int)
    (left right : Int) (h : left < right) :
    mergeSortHelperBy cmp (fuel + 1) arr left right =
      (mergeSortHelperBy cmp fuel arr left (left + Int.tdiv (right - left) 2)).bind (fun a1 =>
        (mergeSortHelperBy cmp fuel a1 (left + Int.tdiv (right - left) 2 + 1) right).bind
          (fun a2 => mergeBy cmp a2 left (left + Int.tdiv (right - left) 2) right)) := by
  rw [mergeSortHelperBy]
  simp only [h, if_true, Option.bind_eq_bind]

theorem mergeSortHelperBy_done (cmp : Int → Int → Bool) (fuel : Nat) (arr : List Int)
    (left right : Int) (h : ¬ left < right) :
    mergeSortHelperBy cmp fuel arr left right = some arr := by
  rw [mergeSortHelperBy.eq_def]
  simp only [h, if_false]

/-- Merge sort on the segment `seg` between `pre` and `post`, for a comparison
that is total and transitive: the segment is replaced by a sorted permutation
of itself and the rest of the slice is left alone. -/
theorem mergeSortHelperBy_spec (cmp : Int → Int → Bool)
    (htot : ∀ a b, cmp a b = false → cmp b a = true)
    (htrans : ∀ a b c, cmp a b = true → cmp b c = true → cmp a c = true) :
    ∀ (fuel : Nat) (pre seg post : List Int) (left right : Int),
      left = pre.length → right = (pre.length : Int) + seg.length - 1 →
      seg.length ≤ fuel + 1 →
      ∃ seg', mergeSortHelperBy cmp fuel (pre ++ (seg ++ post)) left right
          = some (pre ++ (seg' ++ post)) ∧
        seg'.Perm seg ∧ seg'.Pairwise (fun a b => cmp a b = true) := by
  have short : ∀ seg : List Int, seg.length ≤ 1 →
      seg.Pairwise (fun a b => cmp a b = true) := by
    intro seg hl
    match seg, hl with
    | [], _ => exact List.Pairwise.nil
    | [a], _ => exact List.pairwise_singleton _ a
  intro fuel
  induction fuel with
  | zero =>
    intro pre seg post left right hleft hright hlen
    exact ⟨seg, mergeSortHelperBy_done cmp 0 _ left right (by omega), List.Perm.refl _,
      short seg (by omega)⟩
  | succ fuel ih =>
    intro pre seg post left right hleft hright hlen
    by_cases hlt : left < right
    · rw [mergeSortHelperBy_succ cmp fuel _ left right hlt]
      have hmid : left + Int.tdiv (right - left) 2
          = (pre.length : Int) + ((seg.length - 1) / 2 + 1 : Nat) - 1 := by
        rw [Int.tdiv_eq_ediv (by omega) (by omega)]
        push_cast
        omega
      generalize left + Int.tdiv (right - left) 2 = mid at hmid
      have hm : (seg.length - 1) / 2 + 1 ≤ seg.length := by omega
      generalize hA : seg.take ((seg.length - 1) / 2 + 1) = A
      generalize hB : seg.drop ((seg.length - 1) / 2 + 1) = B
      have hseg : seg = A ++ B := by rw [← hA, ← hB, List.take_append_drop]
      have hAlen : A.length = (seg.length - 1) / 2 + 1 := by
        rw [← hA, List.length_take]; omega
      have hBlen : B.length = seg.length - ((seg.length - 1) / 2 + 1) := by
        rw [← hB, List.length_drop]
      have e0 : pre ++ (seg ++ post) = pre ++ (A ++ (B ++ post)) := by rw [hseg]; simp
      obtain ⟨A', h1, hpA, hsA⟩ := ih pre A (B ++ post) left mid hleft
        (by rw [hmid, hAlen]) (by omega)
      rw [e0, h1, Option.some_bind]
      have hA'len : A'.length = A.length := hpA.length_eq
      have e1 : pre ++ (A' ++ (B ++ post)) = (pre ++ A') ++ (B ++ post) := by simp
      obtain ⟨B', h2, hpB, hsB⟩ := ih (pre ++ A') B post (mid + 1) right
        (by simp; omega) (by simp; omega) (by omega)
      rw [e1, h2, Option.some_bind]
      have hB'len : B'.length = B.length := hpB.length_eq
      have e2 : (pre ++ A') ++ (B' ++ post) = pre ++ (A' ++ (B' ++ post)) := by simp
      rw [e2, mergeBy_spec cmp pre A' B' post left mid right hleft (by omega) (by omega)]
      refine ⟨List.merge A' B' cmp, rfl, ?_, ?_⟩
      · rw [hseg]
        exact (List.merge_perm_append cmp).trans (List.Perm.append hpA hpB)
      · apply List.sorted_merge
        · intro a b c hab hbc
          exact htrans a b c hab hbc
        · intro a b
          cases hc : cmp a b with
          | true => simp
          | false => simp [htot a b hc]
        · exact hsA
        · exact hsB
    · exact ⟨seg, mergeSortHelperBy_done cmp _ _ left right hlt, List.Perm.refl _,
        short seg (by omega)⟩

/-- Adjacent elements of a pairwise-related list are related. -/
theorem adjacent_of_pairwise {r : Int → Int → Prop} {l : List Int} (h : l.Pairwise r)
    (i : Nat) (a b : Int) (ha : l[i]? = some a) (hb : l[i + 1]? = some b) : r a b := by
  obtain ⟨hi, rfl⟩ := List.getElem?_eq_some.1 ha
  obtain ⟨hj, rfl⟩ := List.getElem?_eq_some.1 hb
  exact List.pairwise_iff_getElem.1 h i (i + 1) hi hj (Nat.lt_succ_self i)

theorem le_cmp_total (a b : Int) (h : decide (a ≤ b) = false) : decide (b ≤ a) = true := by
  simp at h ⊢; omega

theorem le_cmp_trans (a b c : Int) (h1 : decide (a ≤ b) = true) (h2 : decide (b ≤ c) = true) :
    decide (a ≤ c) = true := by
  simp at h1 h2 ⊢; omega

theorem ge_cmp_total (a b : Int) (h : decide (a ≥ b) = false) : decide (b ≥ a) = true := by
  simp at h ⊢; omega

theorem ge_cmp_trans (a b c : Int) (h1 : decide (a ≥ b) = true) (h2 : decide (b ≥ c) = true) :
    decide (a ≥ c) = true := by
  simp at h1 h2 ⊢; omega

/-- `QuickSort` returns: the slice, sorted in place, is a permutation of the
input in non-decreasing order. -/
theorem quickSort_spec (arr : List Int) :
    ∃ out, QuickSort arr = some out ∧ out.arr = out.result ∧
      out.result.Perm arr ∧ out.result.Pairwise (· ≤ ·) := by
  unfold QuickSort
  by_cases h : arr.length ≤ 1
  · rw [if_pos h]
    refine ⟨_, rfl, rfl, List.Perm.refl _, ?_⟩
    match arr, h with
    | [], _ => exact List.Pairwise.nil
    | [a], _ => exact List.pairwise_singleton _ a
  · rw [if_neg h]
    obtain ⟨r, hr, hp, hs⟩ := quickSortHelperBy_spec _ le_cmp_total le_cmp_trans arr.length
      [] arr [] 0 (arr.length - 1) (by simp) (by simp) (by omega)
    simp only [List.nil_append, List.append_nil] at hr
    simp only [quickSortHelper, hr, Option.bind_eq_bind, Option.some_bind]
    refine ⟨_, rfl, rfl, hp, ?_⟩
    exact hs.imp (fun hab => by simpa using hab)

/-- `QuickSortDescending` returns: the slice, sorted in place, is a
permutation of the input in non-increasing order. -/
theorem quickSortDescending_spec (arr : List Int) :
    ∃ out, QuickSortDescending arr = some out ∧ out.arr = out.result ∧
      out.result.Perm arr ∧ out.result.Pairwise (· ≥ ·) := by
  unfold QuickSortDescending
  by_cases h : arr.length ≤ 1
  · rw [if_pos h]
    refine ⟨_, rfl, rfl, List.Perm.refl _, ?_⟩
    match arr, h with
    | [], _ => exact List.Pairwise.nil
    | [a], _ => exact List.pairwise_singleton _ a
  · rw [if_neg h]
    obtain ⟨r, hr, hp, hs⟩ := quickSortHelperBy_spec _ ge_cmp_total ge_cmp_trans arr.length
      [] arr [] 0 (arr.length - 1) (by simp) (by simp) (by omega)
    simp only [List.nil_append, List.append_nil] at hr
    simp only [quickSortDescendingHelper, hr, Option.bind_eq_bind, Option.some_bind]
    refine ⟨_, rfl, rfl, hp, ?_⟩
    exact hs.imp (fun hab => by simpa using hab)

/-- The copy `MergeSort` makes of its argument. -/
theorem copy_into_fresh (arr : List Int) :
    arr.take (List.replicate arr.length (0 : Int)).length
      ++ (List.replicate arr.length (0 : Int)).drop arr.length = arr := by
  simp

/-- `MergeSort` returns: the returned slice is a permutation of the input in
non-decreasing order, and the input slice is as it was. -/
theorem mergeSort_spec (arr : List Int) :
    ∃ out, MergeSort arr = some out ∧ out.arr = arr ∧
      out.result.Perm arr ∧ out.result.Pairwise (· ≤ ·) := by
  unfold MergeSort
  by_cases h : arr.length ≤ 1
  · rw [if_pos h]
    refine ⟨_, rfl, rfl, List.Perm.refl _, ?_⟩
    match arr, h with
    | [], _ => exact List.Pairwise.nil
    | [a], _ => exact List.pairwise_singleton _ a
  · rw [if_neg h]
    obtain ⟨r, hr, hp, hs⟩ := mergeSortHelperBy_spec _ le_cmp_total le_cmp_trans arr.length
      [] arr [] 0 (arr.length - 1) (by simp) (by simp) (by omega)
    simp only [List.nil_append, List.append_nil] at hr
    simp only [makeSlice_length, copy_into_fresh, mergeSortHelper, hr, Option.bind_eq_bind,
      Option.some_bind]
    refine ⟨_, rfl, rfl, hp, ?_⟩
    exact hs.imp (fun hab => by simpa using hab)

/-- `MergeSortDescending` returns: the returned slice is a permutation of the
input in non-increasing order, and the input slice is as it was. -/
theorem mergeSortDescending_spec (arr : List Int) :
    ∃ out, MergeSortDescending arr = some out ∧ out.arr = arr ∧
      out.result.Perm arr ∧ out.result.Pairwise (· ≥ ·) := by
  unfold MergeSortDescending
  by_cases h : arr.length ≤ 1
  · rw [if_pos h]
    refine ⟨_, rfl, rfl, List.Perm.refl _, ?_⟩
    match arr, h with
    | [], _ => exact List.Pairwise.nil
    | [a], _ => exact List.pairwise_singleton _ a
  · rw [if_neg h]
    obtain ⟨r, hr, hp, hs⟩ := mergeSortHelperBy_spec _ ge_cmp_total ge_cmp_trans arr.length
      [] arr [] 0 (arr.length - 1) (by simp) (by simp) (by omega)
    simp only [List.nil_append, List.append_nil] at hr
    simp only [makeSlice_length, copy_into_fresh, mergeSortDescendingHelper, hr,
      Option.bind_eq_bind, Option.some_bind]
    refine ⟨_, rfl, rfl, hp, ?_⟩
    exact hs.imp (fun hab => by simpa using hab)

/-- Two permutations of one slice that are both in non-increasing order are
equal. -/
theorem descending_unique {l1 l2 arr : List Int} (p1 : l1.Perm arr) (p2 : l2.Perm arr)
    (s1 : l1.Pairwise (· ≥ ·)) (s2 : l2.Pairwise (· ≥ ·)) : l1 = l2 :=
  List.eq_of_perm_of_sorted (p1.trans p2.symm) s1 s2

/-- C24: for every input slice, `QuickSort` returns a slice in non-decreasing
order: every adjacent pair has `result[i] ≤ result[i+1]`. -/
theorem quickSort_sorted (arr : List Int) :
    ∃ out, QuickSort arr = some out ∧ out.result.Pairwise (· ≤ ·) ∧
      ∀ (i : Nat) (a b : Int), out.result[i]? = some a → out.result[i + 1]? = some b →
        a ≤ b := by
  obtain ⟨out, h, _, _, hs⟩ := quickSort_spec arr
  exact ⟨out, h, hs, adjacent_of_pairwise hs⟩

/-- C25: for every input slice, the slice `QuickSort` returns is a permutation
of the input: it has the same length and holds every integer as many times
as the input does. -/
theorem quickSort_perm (arr : List Int) :
    ∃ out, QuickSort arr = some out ∧ out.result.Perm arr ∧
      out.result.length = arr.length ∧ ∀ x : Int, out.result.count x = arr.count x := by
  obtain ⟨out, h, _, hp, _⟩ := quickSort_spec arr
  exact ⟨out, h, hp, hp.length_eq, fun x => hp.count_eq x⟩

/-- C26: for every input slice, `QuickSortDescending` returns a permutation of
the input in non-increasing order (`result[i] ≥ result[i+1]` for every
adjacent pair), which is the reverse of what `QuickSort` returns. -/
theorem quickSortDescending_correct (arr : List Int) :
    ∃ out, QuickSortDescending arr = some out ∧ out.result.Perm arr ∧
      out.result.Pairwise (· ≥ ·) ∧
      (∀ (i : Nat) (a b : Int), out.result[i]? = some a → out.result[i + 1]? = some b →
        a ≥ b) ∧
      ∃ asc, QuickSort arr = some asc ∧ out.result = asc.result.reverse := by
  obtain ⟨out, h, _, hp, hs⟩ := quickSortDescending_spec arr
  obtain ⟨asc, ha, _, hpa, hsa⟩ := quickSort_spec arr
  refine ⟨out, h, hp, hs, adjacent_of_pairwise hs, asc, ha, ?_⟩
  apply descending_unique hp ((List.reverse_perm _).trans hpa) hs
  rw [List.pairwise_reverse]
  exact hsa

/-- C27: for every input slice, `MergeSort` returns a slice in non-decreasing
order that is a permutation of the input, and the contents of the input slice
are the same after the call as before it. -/
theorem mergeSort_correct (arr : List Int) :
    ∃ out, MergeSort arr = some out ∧ out.result.Pairwise (· ≤ ·) ∧
      (∀ (i : Nat) (a b : Int), out.result[i]? = some a → out.result[i + 1]? = some b →
        a ≤ b) ∧
      out.result.Perm arr ∧ out.arr = arr := by
  obtain ⟨out, h, harr, hp, hs⟩ := mergeSort_spec arr
  exact ⟨out, h, hs, adjacent_of_pairwise hs, hp, harr⟩

/-- C28: for every input slice, `MergeSortDescending` returns a slice in
non-increasing order that is a permutation of the input; it holds the same
sequence as the slice `QuickSortDescending` returns on the same input. -/
theorem mergeSortDescending_correct (arr : List Int) :
    ∃ out, MergeSortDescending arr = some out ∧ out.result.Pairwise (· ≥ ·) ∧
      (∀ (i : Nat) (a b : Int), out.result[i]? = some a → out.result[i + 1]? = some b →
        a ≥ b) ∧
      out.result.Perm arr ∧
      ∃ q, QuickSortDescending arr = some q ∧ out.result = q.result := by
  obtain ⟨out, h, _, hp, hs⟩ := mergeSortDescending_spec arr
  obtain ⟨q, hq, _, hpq, hsq⟩ := quickSortDescending_spec arr
  exact ⟨out, h, hs, adjacent_of_pairwise hs, hp, q, hq, descending_unique hp hpq hs hsq⟩

/-! ## The sorts and the searches on a concrete slice -/

theorem quickSort_example :
    QuickSort [3, 1, 2, 1] = some { arr := [1, 1, 2, 3], result := [1, 1, 2, 3] } ∧
      QuickSortDescending [3, 1, 2, 1]
        = some { arr := [3, 2, 1, 1], result := [3, 2, 1, 1] } := by
  decide

theorem mergeSort_example :
    MergeSort [3, 1, 2, 1] = some { arr := [3, 1, 2, 1], result := [1, 1, 2, 3] } ∧
      MergeSortDescending [3, 1, 2, 1]
        = some { arr := [3, 1, 2, 1], result := [3, 2, 1, 1] } := by
  decide

theorem binarySearch_example :
    BinarySearch [1, 3, 3, 3, 8] 3 = some 2 ∧ BinarySearchFirst [1, 3, 3, 3, 8] 3 = some 1 ∧
      BinarySearchLast [1, 3, 3, 3, 8] 3 = some 3 ∧ BinarySearch [1, 3, 3, 3, 8] 4 = some (-1) ∧
      BinarySearch [] 4 = some (-1) := by
  decide

/-! ## Linked list: `Delete` and `Search` -/

/-- The loop of `Delete` behind the node `current`: it fails exactly when
`data` does not occur behind `current`, and otherwise leaves `current`
followed by the nodes behind it without the first one that holds `data`. -/
theorem unlinkAfter_spec (data : Int) (nx : NodePtr) :
    ∀ d : Int,
      (unlinkAfter data d nx = none ↔ data ∉ nx.toList) ∧
        ∀ c, unlinkAfter data d nx = some c → c.toList = d :: nx.toList.erase data := by
  induction nx with
  | nil =>
    intro d
    simp [unlinkAfter, NodePtr.toList]
  | node d' nx ih =>
    intro d
    unfold unlinkAfter
    by_cases heq : d' = data
    · subst heq
      simp [NodePtr.toList]
    · rw [if_neg heq]
      obtain ⟨h1, h2⟩ := ih d'
      have hne : ¬ (d' == data) = true := by simpa using heq
      have hne2 : data ≠ d' := fun h => heq h.symm
      cases hu : unlinkAfter data d' nx with
      | none =>
        have := h1.1 hu
        simp [NodePtr.toList, this, hne2]
      | some c =>
        have hc := h2 c hu
        have hmem : data ∈ nx.toList := by
          by_contra hcon
          rw [h1.2 hcon] at hu
          exact absurd hu (by simp)
        refine ⟨by simp [NodePtr.toList, hmem], ?_⟩
        intro c2 hc2
        simp only [Option.some.injEq] at hc2
        subst hc2
        simp only [NodePtr.toList, hc, List.erase_cons_tail hne]

/-- What `Delete` returns and leaves, in terms of the elements of the list. -/
theorem delete_spec (ll : LinkedList) (d : Int) :
    ((ll.Delete d).1 = true ↔ d ∈ ll.Head.toList) ∧
      ((ll.Delete d).1 = true →
        (ll.Delete d).2.Head.toList = ll.Head.toList.erase d ∧
          (ll.Delete d).2.Size = ll.Size - 1) ∧
      ((ll.Delete d).1 = false → (ll.Delete d).2 = ll) := by
  unfold LinkedList.Delete
  cases hh : ll.Head with
  | nil => simp [NodePtr.toList]
  | node d' nx =>
    simp only
    by_cases heq : d' = d
    · subst heq
      simp [NodePtr.toList]
    · rw [if_neg heq]
      have hne : ¬ (d' == d) = true := by simpa using heq
      have hne2 : d ≠ d' := fun h => heq h.symm
      obtain ⟨h1, h2⟩ := unlinkAfter_spec d nx d'
      cases hu : unlinkAfter d d' nx with
      | none =>
        have := h1.1 hu
        simp [NodePtr.toList, this, hne2]
      | some c =>
        have hc := h2 c hu
        have hmem : d ∈ nx.toList := by
          by_contra hcon
          rw [h1.2 hcon] at hu
          exact absurd hu (by simp)
        simp [NodePtr.toList, hmem, hc, List.erase_cons_tail hne]

theorem searchFrom_iff (data : Int) (p : NodePtr) :
    searchFrom data p = true ↔ data ∈ p.toList := by
  induction p with
  | nil => simp [searchFrom, NodePtr.toList]
  | node d nx ih =>
    unfold searchFrom
    by_cases heq : d = data
    · simp [heq, NodePtr.toList]
    · have hne2 : data ≠ d := fun h => heq h.symm
      simp [heq, hne2, NodePtr.toList, ih]

/-- C31: `Delete` removes the first occurrence only: it returns true exactly
when `d` occurs in the sequence `xs` the list holds; then the list holds `xs`
without its first occurrence of `d` (`xs = before ++ d :: after` with `d` not
in `before` becomes `before ++ after`) and `Size` is one less; when it returns
false the list and `Size` are as they were. -/
theorem delete_removes_first (ll : LinkedList) (xs : List Int) (d : Int)
    (h : ll.Head.toList = xs) :
    ((ll.Delete d).1 = true ↔ d ∈ xs) ∧
      ((ll.Delete d).1 = true →
        (ll.Delete d).2.Head.toList = xs.erase d ∧
          (∃ before after, xs = before ++ d :: after ∧ d ∉ before ∧
            (ll.Delete d).2.Head.toList = before ++ after) ∧
          (ll.Delete d).2.Size = ll.Size - 1) ∧
      ((ll.Delete d).1 = false → (ll.Delete d).2 = ll) := by
  subst h
  obtain ⟨h1, h2, h3⟩ := delete_spec ll d
  refine ⟨h1, ?_, h3⟩
  intro ht
  obtain ⟨he, hs⟩ := h2 ht
  refine ⟨he, ?_, hs⟩
  obtain ⟨l1, l2, hnot, hsplit, herase⟩ := List.exists_erase_eq (h1.1 ht)
  exact ⟨l1, l2, hsplit, hnot, by rw [he, herase]⟩

theorem delete_removes_first_witness :
    (((NewLinkedList.Add 7).Add 4).Add 7).Head.toList = [7, 4, 7] ∧
      ((((((NewLinkedList.Add 7).Add 4).Add 7).Delete 7).1 = true ↔ 7 ∈ ([7, 4, 7] : List Int)) ∧
        (((((NewLinkedList.Add 7).Add 4).Add 7).Delete 7).1 = true →
          ((((NewLinkedList.Add 7).Add 4).Add 7).Delete 7).2.Head.toList
              = ([7, 4, 7] : List Int).erase 7 ∧
            (∃ before after, ([7, 4, 7] : List Int) = before ++ 7 :: after ∧ 7 ∉ before ∧
              ((((NewLinkedList.Add 7).Add 4).Add 7).Delete 7).2.Head.toList
                = before ++ after) ∧
            ((((NewLinkedList.Add 7).Add 4).Add 7).Delete 7).2.Size
              = (((NewLinkedList.Add 7).Add 4).Add 7).Size - 1) ∧
        (((((NewLinkedList.Add 7).Add 4).Add 7).Delete 7).1 = false →
          ((((NewLinkedList.Add 7).Add 4).Add 7).Delete 7).2
            = ((NewLinkedList.Add 7).Add 4).Add 7)) :=
  ⟨by decide, delete_removes_first _ [7, 4, 7] 7 (by decide)⟩

/-- C32: `Search` reports membership: it returns true exactly when `d` occurs
in the sequence `xs` the list holds, and leaves the list as it was; in
particular it returns true right after `Add(d)` and after
`AddAtBeginning(d)`. -/
theorem search_reports_membership (ll : LinkedList) (xs : List Int) (d : Int)
    (h : ll.Head.toList = xs) :
    ((ll.Search d).1 = true ↔ d ∈ xs) ∧ (ll.Search d).2 = ll ∧
      ((ll.Add d).Search d).1 = true ∧ ((ll.AddAtBeginning d).Search d).1 = true := by
  subst h
  refine ⟨searchFrom_iff d ll.Head, rfl, ?_, ?_⟩
  · show searchFrom d (ll.Add d).Head = true
    rw [searchFrom_iff, add_toList]
    simp
  · show searchFrom d (ll.AddAtBeginning d).Head = true
    rw [searchFrom_iff]
    simp [LinkedList.AddAtBeginning, NodePtr.toList]

theorem search_reports_membership_witness :
    ((NewLinkedList.Add 7).AddAtBeginning 4).Head.toList = [4, 7] ∧
      (((((NewLinkedList.Add 7).AddAtBeginning 4).Search 9).1 = true ↔
          9 ∈ ([4, 7] : List Int)) ∧
        (((NewLinkedList.Add 7).AddAtBeginning 4).Search 9).2
          = (NewLinkedList.Add 7).AddAtBeginning 4 ∧
        ((((NewLinkedList.Add 7).AddAtBeginning 4).Add 9).Search 9).1 = true ∧
        ((((NewLinkedList.Add 7).AddAtBeginning 4).AddAtBeginning 9).Search 9).1 = true) :=
  ⟨by decide, search_reports_membership _ [4, 7] 9 (by decide)⟩

/-! ## Rate limiter: the window boundary, independence of clients, the sweep -/

/-- The decision of `Allow`, in each of the four branches: it depends on the
client's own record only. -/
theorem allow_decision (rl : RateLimiter) (ip : String) (now : Int) :
    (rl.Allow ip now).1 =
      match rl.visitors.lookup ip with
      | none => true
      | some v =>
        if Since now v.lastSeen > Minute then true
        else if v.count ≥ 100 then false
        else true := by
  unfold RateLimiter.Allow
  cases h : rl.visitors.lookup ip with
  | none => simp
  | some v =>
    simp only
    split_ifs <;> rfl

/-- The sweep removes a record that is older than a minute. -/
theorem cleanup_lookup_expired (rl : RateLimiter) (s : Int) (ip : String) (v : Visitor)
    (hv : rl.visitors.lookup ip = some v) (hexp : s - v.lastSeen > Minute) :
    (rl.cleanupVisitors s).visitors.lookup ip = none := by
  cases hc : (rl.cleanupVisitors s).visitors.lookup ip with
  | none => rfl
  | some w =>
    have hw := (cleanup_lookup rl s ip w).1 hc
    rw [hv] at hw
    have hvw : v = w := by simpa using hw.1
    subst hvw
    omega

/-- C33: expiry is strict: a record whose age is exactly one minute is not
expired. For it `Allow` returns false and changes nothing when `count = 100`,
and returns true with `count` one more and `lastSeen` kept when
`count < 100`; the sweep keeps the record. -/
theorem expiry_is_strict (rl : RateLimiter) (ip : String) (now : Int) (v : Visitor)
    (h : rl.visitors.lookup ip = some v) (hage : now - v.lastSeen = Minute) :
    ¬ Since now v.lastSeen > Minute ∧
      (v.count = 100 → rl.Allow ip now = (false, rl)) ∧
      (v.count < 100 →
        (rl.Allow ip now).1 = true ∧
          (rl.Allow ip now).2.visitors.lookup ip
            = some { lastSeen := v.lastSeen, count := v.count + 1 }) ∧
      (rl.cleanupVisitors now).visitors.lookup ip = some v := by
  have hwin : now - v.lastSeen ≤ Minute := le_of_eq hage
  refine ⟨?_, ?_, ?_, ?_⟩
  · rw [since_gt_minute_iff]
    omega
  · intro hc
    exact allow_of_full h hwin (by omega)
  · intro hc
    rw [allow_of_room h hwin hc]
    simp
  · exact (cleanup_lookup rl now ip v).2 ⟨h, hwin⟩

theorem expiry_is_strict_witness :
    (RateLimiter.mk (AList.singleton "10.0.0.1" ⟨5, 100⟩)).visitors.lookup "10.0.0.1"
        = some ⟨5, 100⟩ ∧
      (60000000005 : Int) - (Visitor.mk 5 100).lastSeen = Minute ∧
      (¬ Since 60000000005 (Visitor.mk 5 100).lastSeen > Minute ∧
        ((Visitor.mk 5 100).count = 100 →
          (RateLimiter.mk (AList.singleton "10.0.0.1" ⟨5, 100⟩)).Allow "10.0.0.1" 60000000005
            = (false, RateLimiter.mk (AList.singleton "10.0.0.1" ⟨5, 100⟩))) ∧
        ((Visitor.mk 5 100).count < 100 →
          ((RateLimiter.mk (AList.singleton "10.0.0.1" ⟨5, 100⟩)).Allow "10.0.0.1"
              60000000005).1 = true ∧
            ((RateLimiter.mk (AList.singleton "10.0.0.1" ⟨5, 100⟩)).Allow "10.0.0.1"
                60000000005).2.visitors.lookup "10.0.0.1"
              = some { lastSeen := (Visitor.mk 5 100).lastSeen,
                       count := (Visitor.mk 5 100).count + 1 }) ∧
        ((RateLimiter.mk (AList.singleton "10.0.0.1" ⟨5, 100⟩)).cleanupVisitors
            60000000005).visitors.lookup "10.0.0.1" = some ⟨5, 100⟩) :=
  ⟨by decide, by decide,
    expiry_is_strict _ "10.0.0.1" 60000000005 ⟨5, 100⟩ (by decide) (by decide)⟩

/-- C34: per-client independence: on two limiters that agree on the record of
`ip` (or on its absence), `Allow` for `ip` returns the same boolean and leaves
the same record for `ip`; and in either run the record of every other client
is after the call what it was before. -/
theorem allow_per_client_independent (rl1 rl2 : RateLimiter) (ip : String) (now : Int)
    (h : rl1.visitors.lookup ip = rl2.visitors.lookup ip) :
    (rl1.Allow ip now).1 = (rl2.Allow ip now).1 ∧
      (rl1.Allow ip now).2.visitors.lookup ip = (rl2.Allow ip now).2.visitors.lookup ip ∧
      (∀ other : String, other ≠ ip →
        (rl1.Allow ip now).2.visitors.lookup other = rl1.visitors.lookup other) ∧
      (∀ other : String, other ≠ ip →
        (rl2.Allow ip now).2.visitors.lookup other = rl2.visitors.lookup other) := by
  refine ⟨?_, ?_, fun other hne => allow_lookup_ne rl1 now hne,
    fun other hne => allow_lookup_ne rl2 now hne⟩
  · rw [allow_decision, allow_decision, h]
  · rw [allow_lookup_self, allow_lookup_self, h]

theorem allow_per_client_independent_witness :
    (RateLimiter.mk (AList.singleton "10.0.0.1" ⟨0, 100⟩)).visitors.lookup "10.0.0.1"
        = (RateLimiter.mk
            ((AList.singleton "10.0.0.1" ⟨0, 100⟩).insert "10.0.0.2" ⟨9, 1⟩)).visitors.lookup
            "10.0.0.1" ∧
      (((RateLimiter.mk (AList.singleton "10.0.0.1" ⟨0, 100⟩)).Allow "10.0.0.1" 7).1
          = ((RateLimiter.mk
              ((AList.singleton "10.0.0.1" ⟨0, 100⟩).insert "10.0.0.2" ⟨9, 1⟩)).Allow
              "10.0.0.1" 7).1 ∧
        ((RateLimiter.mk (AList.singleton "10.0.0.1" ⟨0, 100⟩)).Allow "10.0.0.1"
            7).2.visitors.lookup "10.0.0.1"
          = ((RateLimiter.mk
              ((AList.singleton "10.0.0.1" ⟨0, 100⟩).insert "10.0.0.2" ⟨9, 1⟩)).Allow
              "10.0.0.1" 7).2.visitors.lookup "10.0.0.1" ∧
        (∀ other : String, other ≠ "10.0.0.1" →
          ((RateLimiter.mk (AList.singleton "10.0.0.1" ⟨0, 100⟩)).Allow "10.0.0.1"
              7).2.visitors.lookup other
            = (RateLimiter.mk (AList.singleton "10.0.0.1" ⟨0, 100⟩)).visitors.lookup other) ∧
        (∀ other : String, other ≠ "10.0.0.1" →
          ((RateLimiter.mk
              ((AList.singleton "10.0.0.1" ⟨0, 100⟩).insert "10.0.0.2" ⟨9, 1⟩)).Allow
              "10.0.0.1" 7).2.visitors.lookup other
            = (RateLimiter.mk
                ((AList.singleton "10.0.0.1" ⟨0, 100⟩).insert "10.0.0.2"
                  ⟨9, 1⟩)).visitors.lookup other)) :=
  ⟨by decide, allow_per_client_independent _ _ "10.0.0.1" 7 (by decide)⟩

/-- C35: the sweep is invisible to admit decisions: for times `s ≤ t`, `Allow`
for `ip` at `t` on the limiter swept at `s` returns the same boolean and
leaves the same record for `ip` as `Allow` at `t` on the unswept limiter. -/
theorem sweep_invisible_to_allow (rl : RateLimiter) (ip : String) (s t : Int)
    (hst : s ≤ t) :
    ((rl.cleanupVisitors s).Allow ip t).1 = (rl.Allow ip t).1 ∧
      ((rl.cleanupVisitors s).Allow ip t).2.visitors.lookup ip
        = (rl.Allow ip t).2.visitors.lookup ip := by
  cases hv : rl.visitors.lookup ip with
  | none =>
    have hc := cleanup_lookup_none rl s ip hv
    rw [allow_decision, allow_decision, allow_lookup_self, allow_lookup_self, hc, hv]
    exact ⟨rfl, rfl⟩
  | some v =>
    by_cases hexp : s - v.lastSeen > Minute
    · have hc := cleanup_lookup_expired rl s ip v hv hexp
      have ht : t - v.lastSeen > Minute := by omega
      rw [allow_of_none t hc, allow_of_expired hv ht]
      simp
    · have hc : (rl.cleanupVisitors s).visitors.lookup ip = some v :=
        (cleanup_lookup rl s ip v).2 ⟨hv, by omega⟩
      rw [allow_decision, allow_decision, allow_lookup_self, allow_lookup_self, hc, hv]
      exact ⟨rfl, rfl⟩

theorem sweep_invisible_to_allow_witness :
    (60000000001 : Int) ≤ 60000000002 ∧
      ((((RateLimiter.mk (AList.singleton "10.0.0.1" ⟨0, 100⟩)).cleanupVisitors
            60000000001).Allow "10.0.0.1" 60000000002).1
          = ((RateLimiter.mk (AList.singleton "10.0.0.1" ⟨0, 100⟩)).Allow "10.0.0.1"
              60000000002).1 ∧
        (((RateLimiter.mk (AList.singleton "10.0.0.1" ⟨0, 100⟩)).cleanupVisitors
            60000000001).Allow "10.0.0.1" 60000000002).2.visitors.lookup "10.0.0.1"
          = ((RateLimiter.mk (AList.singleton "10.0.0.1" ⟨0, 100⟩)).Allow "10.0.0.1"
              60000000002).2.visitors.lookup "10.0.0.1") :=
  ⟨by decide, sweep_invisible_to_allow _ "10.0.0.1" 60000000001 60000000002 (by decide)⟩

end GoFirst
